import Mathlib

set_option linter.unusedSectionVars false

/-!
Verification of the graph utilities of the `goit-algo-hw-06` repository
(`src/graph_utils/dijkstra.py`, `src/graph_utils/pathfinding.py`,
`src/graph_utils/graph_builder.py`).

The Python code is shallowly embedded:

* a `networkx.Graph` is a list of nodes together with an adjacency
  function returning, for each node, the list of `(neighbor, attrs)`
  items of the dict `G[u]`; only the `weight` attribute is relevant to
  the search code, so attrs are modelled as `Option ℕ` (the optional
  `weight` entry).  Edge weights stored by this repository are integer
  numbers of seconds (or the defaults `1`/`60`), hence `ℕ`;
* Python dicts become association lists (`alookup`/`aset`), preserving
  the key-absent/`KeyError` behaviour;
* `heapq` is modelled by a list kept sorted in the lexicographic order
  of the pushed `(distance, node)` tuples: `heappop` returns the least
  tuple, which is the head of the sorted list;
* `float('inf')` becomes `⊤ : ℕ∞`;
* a Python exception escaping a function becomes `Except.error`.
-/

/-- Errors a modelled Python fragment can raise. -/
inductive PyErr where
  | keyError : PyErr
  | valueError : PyErr
  | nonTermination : PyErr
deriving DecidableEq, Repr

/-- Dict lookup on an association list: value at the first matching key,
`none` when the key is absent. -/
def alookup {V : Type} {β : Type} [DecidableEq V] (k : V) : List (V × β) → Option β
  | [] => none
  | (a, b) :: l => if a = k then some b else alookup k l

/-- Dict write `d[k] = v`: replaces the value at the first matching key in
place, appending a fresh entry at the end when the key is absent
(Python dicts keep insertion order). -/
def aset {V : Type} {β : Type} [DecidableEq V] (k : V) (v : β) : List (V × β) → List (V × β)
  | [] => [(k, v)]
  | (a, b) :: l => if a = k then (a, v) :: l else (a, b) :: aset k v l

/-- Embedding of the `networkx.Graph` objects used by `dijkstra.py` and
`pathfinding.py`: the node list (`G.nodes()`) and, for every node, the
items of its adjacency dict `G[u]` as `(neighbor, weight-attribute)`
pairs. -/
structure PyGraph (V : Type) where
  nodes : List V
  adj : V → List (V × Option ℕ)

namespace PyGraph

variable {V : Type} [LinearOrder V]

/-- `G[u]`: the adjacency dict of `u`, raising `KeyError` (`none`)
when `u` is not a node of the graph. -/
def getAdj (G : PyGraph V) (u : V) : Option (List (V × Option ℕ)) :=
  if u ∈ G.nodes then some (G.adj u) else none

/-- The `weight` attribute of the edge `u v` (dict lookup in `G[u]`),
`none` when there is no such edge. -/
def edgeAttr (G : PyGraph V) (u v : V) : Option (Option ℕ) :=
  alookup v (G.adj u)

/-- `attrs.get('weight', 1)`: the effective weight of an edge during
relaxation. -/
def pyWeight (a : Option ℕ) : ℕ := a.getD 1

/-- The effective weight of the edge `u v` (default `1` when the
`weight` attribute is missing; arbitrary when there is no edge). -/
def stepW (G : PyGraph V) (u v : V) : ℕ :=
  pyWeight ((G.edgeAttr u v).getD none)

/-- Adjacency lists only mention nodes of the graph (true of every
`networkx` graph: edge insertion adds both endpoints as nodes). -/
def Closed (G : PyGraph V) : Prop :=
  ∀ u ∈ G.nodes, ∀ p ∈ G.adj u, p.1 ∈ G.nodes

/-- Each adjacency dict has pairwise distinct keys (true of every
Python dict). -/
def AdjNodup (G : PyGraph V) : Prop :=
  ∀ u ∈ G.nodes, ((G.adj u).map Prod.fst).Nodup

/-- The node list has no duplicates (true of `networkx`, whose node set
is a dict). -/
def NodesNodup (G : PyGraph V) : Prop := G.nodes.Nodup

/-- Adjacency is symmetric, with the shared attribute dict of an
undirected `networkx` edge (`G[u][v] is G[v][u]`). -/
def Symm (G : PyGraph V) : Prop :=
  ∀ u ∈ G.nodes, ∀ v ∈ G.nodes, G.edgeAttr u v = G.edgeAttr v u

/-- A well-formed undirected `networkx` graph. -/
def WF (G : PyGraph V) : Prop :=
  G.Closed ∧ G.AdjNodup ∧ G.NodesNodup ∧ G.Symm

instance (G : PyGraph V) : Decidable G.Closed := by
  unfold Closed; infer_instance

instance (G : PyGraph V) : Decidable G.AdjNodup := by
  unfold AdjNodup; infer_instance

instance (G : PyGraph V) : Decidable G.NodesNodup := by
  unfold NodesNodup; infer_instance

instance (G : PyGraph V) : Decidable G.Symm := by
  unfold Symm; infer_instance

instance (G : PyGraph V) : Decidable G.WF := by
  unfold WF; infer_instance

end PyGraph

section Walks

variable {V : Type} [LinearOrder V]

open PyGraph

/-- The last element of a list, with default `a` for the empty list. -/
def lastD {V : Type} (a : V) : List V → V
  | [] => a
  | b :: r => lastD b r

/-- `Steps G a r`: starting at `a`, the successive vertices of `r` are
each joined to the previous one by an edge of `G`. -/
def Steps (G : PyGraph V) : V → List V → Prop
  | _, [] => True
  | a, b :: r => (G.edgeAttr a b).isSome ∧ Steps G b r

instance stepsDecidable (G : PyGraph V) : ∀ (a : V) (r : List V), Decidable (Steps G a r)
  | _, [] => isTrue trivial
  | _, b :: r => @instDecidableAnd _ _ _ (stepsDecidable G b r)

/-- Cost of the steps `r` taken from `a`, measured by the step cost `f`. -/
def costFrom (f : V → V → ℕ) : V → List V → ℕ
  | _, [] => 0
  | a, b :: r => f a b + costFrom f b r

/-- `l` is a walk from `s` to `t` in `G`: nonempty, starting at `s`,
consecutive vertices joined by edges, ending at `t`. -/
def IsWalk (G : PyGraph V) (s t : V) : List V → Prop
  | [] => False
  | a :: r => a = s ∧ Steps G s r ∧ lastD s r = t

instance {G : PyGraph V} {s t : V} : ∀ l : List V, Decidable (IsWalk G s t l)
  | [] => isFalse id
  | _ :: _ => instDecidableAnd

/-- Cost of a walk (head vertex followed by its steps). -/
def walkCost (f : V → V → ℕ) : List V → ℕ
  | [] => 0
  | a :: r => costFrom f a r

/-- `t` is reachable from `s` in `G`. -/
def Reachable (G : PyGraph V) (s t : V) : Prop :=
  ∃ l, IsWalk G s t l

/-- Least cost over all walks from `s` to `t`, measured by the step cost
`f`; `⊤` when `t` is unreachable from `s`. -/
noncomputable def deltaGen (G : PyGraph V) (f : V → V → ℕ) (s t : V) : ℕ∞ :=
  sInf {x : ℕ∞ | ∃ l, IsWalk G s t l ∧ (walkCost f l : ℕ∞) = x}

/-- The minimum total `weight` (missing attributes counting as 1) over
all walks from `s` to `t`: the quantity `dijkstra_shortest_path` is
specified to return. -/
noncomputable def delta (G : PyGraph V) (s t : V) : ℕ∞ :=
  deltaGen G (stepW G) s t

/-- The minimum number of edges over all walks from `s` to `t`: the
quantity `bfs_path` is specified to minimise. -/
noncomputable def edelta (G : PyGraph V) (s t : V) : ℕ∞ :=
  deltaGen G (fun _ _ => 1) s t

end Walks

section WalkLemmas

variable {V : Type} [LinearOrder V]

open PyGraph

theorem lastD_mem_cons (b : V) (r : List V) : lastD b r ∈ b :: r := by
  induction r generalizing b with
  | nil => simp [lastD]
  | cons c r ih =>
    simp only [lastD]
    rcases List.mem_cons.mp (ih c) with h | h
    · rw [h]; simp
    · simp [h]

theorem alookup_mem {β : Type} {l : List (V × β)} {k : V} {b : β}
    (h : alookup k l = some b) : (k, b) ∈ l := by
  induction l with
  | nil => simp [alookup] at h
  | cons p l ih =>
    obtain ⟨a, v⟩ := p
    by_cases hak : a = k
    · rw [alookup, if_pos hak] at h
      cases h
      rw [hak]
      exact List.mem_cons_self _ _
    · rw [alookup, if_neg hak] at h
      exact List.mem_cons_of_mem _ (ih h)

theorem mem_alookup_isSome {β : Type} {l : List (V × β)} {k : V} {b : β}
    (h : (k, b) ∈ l) : (alookup k l).isSome := by
  induction l with
  | nil => cases h
  | cons p l ih =>
    obtain ⟨a, v⟩ := p
    by_cases hak : a = k
    · simp [alookup, hak]
    · rcases List.mem_cons.mp h with hh | hh
      · cases hh; simp at hak
      · simpa [alookup, hak] using ih hh

theorem alookup_aset_self {β : Type} (k : V) (v : β) (l : List (V × β)) :
    alookup k (aset k v l) = some v := by
  induction l with
  | nil => simp [aset, alookup]
  | cons p l ih =>
    obtain ⟨a, b⟩ := p
    by_cases hak : a = k
    · simp [aset, alookup, hak]
    · simp [aset, alookup, hak, ih]

theorem alookup_aset_ne {β : Type} {k k' : V} (hne : k' ≠ k) (v : β) (l : List (V × β)) :
    alookup k' (aset k v l) = alookup k' l := by
  induction l with
  | nil => simp [aset, alookup, Ne.symm hne]
  | cons p l ih =>
    obtain ⟨a, b⟩ := p
    by_cases hak : a = k
    · subst hak
      simp [aset, alookup, Ne.symm hne]
    · simp only [aset, if_neg hak]
      by_cases hak' : a = k'
      · simp [alookup, hak']
      · simp [alookup, hak', ih]

theorem alookup_isSome_aset {β : Type} (k k' : V) (v : β) (l : List (V × β))
    (h : (alookup k' l).isSome) : (alookup k' (aset k v l)).isSome := by
  by_cases hk : k' = k
  · subst hk; simp [alookup_aset_self]
  · rwa [alookup_aset_ne hk]

theorem aset_length_ge {β : Type} (k : V) (v : β) (l : List (V × β)) :
    l.length ≤ (aset k v l).length := by
  induction l with
  | nil => simp [aset]
  | cons p l ih =>
    obtain ⟨a, b⟩ := p
    by_cases hak : a = k
    · simp [aset, hak]
    · simp only [aset, if_neg hak, List.length_cons]
      omega

theorem lastD_append (a : V) (r₁ r₂ : List V) :
    lastD a (r₁ ++ r₂) = lastD (lastD a r₁) r₂ := by
  induction r₁ generalizing a with
  | nil => simp [lastD]
  | cons b r ih => simp [lastD, ih]

theorem steps_append {G : PyGraph V} (a : V) (r₁ r₂ : List V) :
    Steps G a (r₁ ++ r₂) ↔ Steps G a r₁ ∧ Steps G (lastD a r₁) r₂ := by
  induction r₁ generalizing a with
  | nil => simp [Steps, lastD]
  | cons b r ih =>
    simp only [List.cons_append, List.append_eq, Steps, ih b, lastD, and_assoc]

theorem costFrom_append (f : V → V → ℕ) (a : V) (r₁ r₂ : List V) :
    costFrom f a (r₁ ++ r₂) = costFrom f a r₁ + costFrom f (lastD a r₁) r₂ := by
  induction r₁ generalizing a with
  | nil => simp [costFrom, lastD]
  | cons b r ih =>
    simp only [List.cons_append, List.append_eq, costFrom, ih b, lastD, Nat.add_assoc]

theorem isWalk_cons {G : PyGraph V} {s t : V} {r : List V} :
    IsWalk G s t (s :: r) ↔ Steps G s r ∧ lastD s r = t := by
  simp [IsWalk]

theorem isWalk_singleton (G : PyGraph V) (s : V) : IsWalk G s s [s] :=
  ⟨rfl, trivial, rfl⟩

theorem IsWalk.head {G : PyGraph V} {s t : V} {l : List V} (h : IsWalk G s t l) :
    ∃ r, l = s :: r := by
  cases l with
  | nil => exact absurd h id
  | cons a r => exact ⟨r, by rw [h.1]⟩

/-- Extending a walk by one edge. -/
theorem isWalk_extend {G : PyGraph V} {s a b : V} {l : List V}
    (h : IsWalk G s a l) (he : (G.edgeAttr a b).isSome) :
    IsWalk G s b (l ++ [b]) := by
  obtain ⟨r, rfl⟩ := h.head
  obtain ⟨-, hsteps, hlast⟩ := h
  refine isWalk_cons.mpr ⟨?_, ?_⟩
  · rw [show r.append [b] = r ++ [b] from rfl, steps_append]
    exact ⟨hsteps, by rw [hlast]; exact ⟨he, trivial⟩⟩
  · rw [show r.append [b] = r ++ [b] from rfl, lastD_append, hlast]
    rfl

theorem walkCost_extend (f : V → V → ℕ) {G : PyGraph V} {s a : V} {l : List V}
    (h : IsWalk G s a l) (b : V) :
    walkCost f (l ++ [b]) = walkCost f l + f a b := by
  obtain ⟨r, rfl⟩ := h.head
  obtain ⟨-, -, hlast⟩ := h
  simp only [List.cons_append, List.append_eq, walkCost, costFrom_append, hlast, costFrom]
  omega

/-- Splicing a walk from `s` to `x` with the steps of a walk from `x`. -/
theorem isWalk_splice {G : PyGraph V} {s x t : V} {w : List V} {r₂ : List V}
    (h₁ : IsWalk G s x w) (h₂ : Steps G x r₂) (hlast : lastD x r₂ = t) :
    IsWalk G s t (w ++ r₂) := by
  obtain ⟨r, rfl⟩ := h₁.head
  obtain ⟨-, hsteps, hl⟩ := h₁
  refine isWalk_cons.mpr ⟨?_, ?_⟩
  · rw [show r.append r₂ = r ++ r₂ from rfl, steps_append, hl]
    exact ⟨hsteps, h₂⟩
  · rw [show r.append r₂ = r ++ r₂ from rfl, lastD_append, hl, hlast]

theorem deltaGen_le {G : PyGraph V} {f : V → V → ℕ} {s t : V} {l : List V}
    (h : IsWalk G s t l) :
    deltaGen G f s t ≤ (walkCost f l : ℕ∞) :=
  sInf_le ⟨l, h, rfl⟩

theorem deltaGen_eq_top {G : PyGraph V} {f : V → V → ℕ} {s t : V} :
    deltaGen G f s t = ⊤ ↔ ¬Reachable G s t := by
  constructor
  · intro h ⟨l, hl⟩
    have := deltaGen_le (f := f) hl
    rw [h, top_le_iff] at this
    exact (WithTop.coe_ne_top this).elim
  · intro h
    rw [deltaGen, sInf_eq_top]
    rintro x ⟨l, hl, rfl⟩
    exact absurd ⟨l, hl⟩ h

/-- The infimum over walk costs is attained whenever some walk exists. -/
theorem deltaGen_attained {G : PyGraph V} {f : V → V → ℕ} {s t : V}
    (h : Reachable G s t) :
    ∃ l, IsWalk G s t l ∧ (walkCost f l : ℕ∞) = deltaGen G f s t := by
  obtain ⟨l₀, hl₀⟩ := h
  have hne : {x : ℕ∞ | ∃ l, IsWalk G s t l ∧ (walkCost f l : ℕ∞) = x}.Nonempty :=
    ⟨_, l₀, hl₀, rfl⟩
  exact csInf_mem hne

theorem delta_eq_top {G : PyGraph V} {s t : V} :
    delta G s t = ⊤ ↔ ¬Reachable G s t :=
  deltaGen_eq_top

theorem deltaGen_self (G : PyGraph V) (f : V → V → ℕ) (s : V) :
    deltaGen G f s s = 0 := by
  apply le_antisymm
  · simpa [walkCost, costFrom] using deltaGen_le (f := f) (isWalk_singleton G s)
  · exact zero_le _

/-- Triangle inequality: one more edge on top of a shortest walk. -/
theorem deltaGen_triangle {G : PyGraph V} (f : V → V → ℕ) {s a b : V}
    (he : (G.edgeAttr a b).isSome) :
    deltaGen G f s b ≤ deltaGen G f s a + (f a b : ℕ∞) := by
  by_cases hr : Reachable G s a
  · obtain ⟨l, hl, hc⟩ := deltaGen_attained (f := f) hr
    calc deltaGen G f s b ≤ (walkCost f (l ++ [b]) : ℕ∞) :=
          deltaGen_le (isWalk_extend hl he)
      _ = (walkCost f l : ℕ∞) + (f a b : ℕ∞) := by
          rw [walkCost_extend f hl b]; push_cast; ring
      _ = _ := by rw [hc]
  · rw [deltaGen_eq_top.mpr hr]
    simp

/-- Splitting a walk at an interior vertex occurrence. -/
theorem isWalk_split {G : PyGraph V} {s t b : V} {r₁ r₂ : List V}
    (h : IsWalk G s t (s :: (r₁ ++ b :: r₂))) :
    IsWalk G s b (s :: (r₁ ++ [b])) ∧ Steps G b r₂ ∧ lastD b r₂ = t := by
  obtain ⟨-, hsteps, hlast⟩ := h
  have hr : r₁ ++ b :: r₂ = (r₁ ++ [b]) ++ r₂ := by simp
  rw [hr, steps_append] at hsteps
  rw [hr, lastD_append] at hlast
  have hb : lastD s (r₁ ++ [b]) = b := by rw [lastD_append]; rfl
  rw [hb] at hsteps hlast
  exact ⟨isWalk_cons.mpr ⟨hsteps.1, hb⟩, hsteps.2, hlast⟩

theorem walkCost_split (f : V → V → ℕ) (s b : V) (r₁ r₂ : List V) :
    walkCost f (s :: (r₁ ++ b :: r₂))
      = walkCost f (s :: (r₁ ++ [b])) + costFrom f b r₂ := by
  have hr : r₁ ++ b :: r₂ = (r₁ ++ [b]) ++ r₂ := by simp
  have hb : lastD s (r₁ ++ [b]) = b := by rw [lastD_append]; rfl
  simp only [walkCost, hr, costFrom_append, hb]

/-- Every prefix of a minimum-cost walk is itself of minimum cost. -/
theorem shortest_walk_pre {G : PyGraph V} {f : V → V → ℕ} {s t b : V}
    {r₁ r₂ : List V}
    (hw : IsWalk G s t (s :: (r₁ ++ b :: r₂)))
    (hopt : (walkCost f (s :: (r₁ ++ b :: r₂)) : ℕ∞) = deltaGen G f s t) :
    (walkCost f (s :: (r₁ ++ [b])) : ℕ∞) = deltaGen G f s b := by
  obtain ⟨hpre, hsteps₂, hlast₂⟩ := isWalk_split hw
  refine le_antisymm ?_ (deltaGen_le hpre)
  by_contra hlt
  push_neg at hlt
  have hrb : Reachable G s b := ⟨_, hpre⟩
  obtain ⟨w, hwb, hcb⟩ := deltaGen_attained (f := f) hrb
  have hsplice : IsWalk G s t (w ++ r₂) := isWalk_splice hwb hsteps₂ hlast₂
  have hcost : walkCost f (w ++ r₂) = walkCost f w + costFrom f b r₂ := by
    obtain ⟨rw₀, rfl⟩ := hwb.head
    obtain ⟨-, -, hlw⟩ := hwb
    simp only [List.cons_append, List.append_eq, walkCost, costFrom_append, hlw]
  have hwlt : walkCost f w < walkCost f (s :: (r₁ ++ [b])) := by
    have := hcb ▸ hlt
    exact_mod_cast this
  have h1 : deltaGen G f s t ≤ (walkCost f (w ++ r₂) : ℕ∞) := deltaGen_le hsplice
  rw [← hopt, hcost, walkCost_split f s b r₁ r₂] at h1
  have : (walkCost f (s :: (r₁ ++ [b])) + costFrom f b r₂ : ℕ)
      ≤ walkCost f w + costFrom f b r₂ := by exact_mod_cast h1
  omega

/-- A walk from inside a vertex set `S` to outside it crosses an edge
from `S` to its complement. -/
theorem steps_cross {G : PyGraph V} {S : V → Prop} {a : V} {r : List V}
    (hsteps : Steps G a r) (ha : S a) (hlast : ¬ S (lastD a r)) :
    ∃ r₁ y r₂, r = r₁ ++ y :: r₂ ∧ S (lastD a r₁) ∧ ¬ S y ∧
      (G.edgeAttr (lastD a r₁) y).isSome := by
  induction r generalizing a with
  | nil => exact absurd ha hlast
  | cons b r ih =>
    obtain ⟨he, hsteps⟩ := hsteps
    by_cases hb : S b
    · obtain ⟨r₁, y, r₂, hr, hx, hy, hxy⟩ := ih hsteps hb (by simpa [lastD] using hlast)
      exact ⟨b :: r₁, y, r₂, by rw [hr]; rfl, by simpa [lastD] using hx, hy,
        by simpa [lastD] using hxy⟩
    · exact ⟨[], b, r, rfl, ha, hb, he⟩

/-- Under a closed adjacency, all vertices of a walk starting at a node
are nodes. -/
theorem steps_mem_nodes {G : PyGraph V} (hc : G.Closed) {a : V} {r : List V}
    (ha : a ∈ G.nodes) (h : Steps G a r) :
    ∀ x ∈ r, x ∈ G.nodes := by
  induction r generalizing a with
  | nil => intro x hx; cases hx
  | cons b r ih =>
    obtain ⟨he, hsteps⟩ := h
    have hb : b ∈ G.nodes := by
      rw [Option.isSome_iff_exists] at he
      obtain ⟨attr, hattr⟩ := he
      have hmem : (b, attr) ∈ G.adj a := alookup_mem hattr
      exact hc a ha _ hmem
    intro x hx
    rcases List.mem_cons.mp hx with rfl | hx
    · exact hb
    · exact ih hb hsteps x hx

theorem lastD_mem_nodes {G : PyGraph V} (hc : G.Closed) {a : V} {r : List V}
    (ha : a ∈ G.nodes) (h : Steps G a r) : lastD a r ∈ G.nodes := by
  cases r with
  | nil => exact ha
  | cons b r =>
    have := steps_mem_nodes hc ha h
    exact this _ (lastD_mem_cons b r)

end WalkLemmas

section DijkstraDefs

variable {V : Type} [LinearOrder V]

open PyGraph

/-- Order on heap entries: Python compares the pushed `(distance, node)`
tuples lexicographically, and `heapq.heappop` returns the least tuple. -/
def entryLE (x y : ℕ × V) : Prop :=
  x.1 < y.1 ∨ (x.1 = y.1 ∧ x.2 ≤ y.2)

instance : DecidableRel (entryLE (V := V)) := fun x y =>
  if h1 : x.1 < y.1 then isTrue (Or.inl h1)
  else if h2 : x.1 = y.1 ∧ x.2 ≤ y.2 then isTrue (Or.inr h2)
  else isFalse (by rintro (h | h) <;> exact absurd h (by assumption))

instance : IsTotal (ℕ × V) entryLE := by
  constructor
  intro a b
  rcases lt_trichotomy a.1 b.1 with h | h | h
  · exact Or.inl (Or.inl h)
  · rcases le_total a.2 b.2 with h2 | h2
    · exact Or.inl (Or.inr ⟨h, h2⟩)
    · exact Or.inr (Or.inr ⟨h.symm, h2⟩)
  · exact Or.inr (Or.inl h)

instance : IsTrans (ℕ × V) entryLE := by
  constructor
  rintro a b c (h1 | ⟨h1, h1b⟩) (h2 | ⟨h2, h2b⟩)
  · exact Or.inl (h1.trans h2)
  · exact Or.inl (h2 ▸ h1)
  · exact Or.inl (h1 ▸ h2)
  · exact Or.inr ⟨h1.trans h2, h1b.trans h2b⟩

/-- `heapq.heappush` on the sorted-list model of the heap. -/
def qpush (e : ℕ × V) (q : List (ℕ × V)) : List (ℕ × V) :=
  List.orderedInsert entryLE e q

/-- State of the main loop of `dijkstra_shortest_path`: the `distances`
dict (as a total function guarded by the fixed key list), the
`predecessors` dict and the heap. -/
structure DState (V : Type) where
  dist : V → ℕ∞
  pred : List (V × Option V)
  queue : List (ℕ × V)

/-- The key set of the `distances` dict: all graph nodes, plus `start`
when it is not a node (the assignment `distances[start] = 0` inserts
it). -/
def dijkstraDistKeys (G : PyGraph V) (start : V) : List V :=
  if start ∈ G.nodes then G.nodes else G.nodes ++ [start]

/-- The inner `for neighbor, attrs in G[current_node].items()` loop of
`dijkstra_shortest_path`: relax each neighbor of the popped entry
`(d, u)`.  Reading `distances[neighbor]` raises `KeyError` when the
neighbor is not a key. -/
def relaxNbrs (distKeys : List V) (d : ℕ) (u : V) :
    List (V × Option ℕ) → (V → ℕ∞) → List (V × Option V) → List (ℕ × V) →
    Except PyErr ((V → ℕ∞) × List (V × Option V) × List (ℕ × V))
  | [], dist, pred, queue => .ok (dist, pred, queue)
  | (w, attr) :: items, dist, pred, queue =>
    if w ∈ distKeys then
      if ((d + pyWeight attr : ℕ) : ℕ∞) < dist w then
        relaxNbrs distKeys d u items
          (fun x => if x = w then ((d + pyWeight attr : ℕ) : ℕ∞) else dist x)
          (aset w (some u) pred)
          (qpush (d + pyWeight attr, w) queue)
      else
        relaxNbrs distKeys d u items dist pred queue
    else .error .keyError

/-- Path reconstruction (`while current_node is not None` in
`dijkstra_shortest_path`, likewise in `dfs_path`/`bfs_path`): follow the
predecessor pointers, collecting vertices in pop order, and reverse at
the end.  The fuel argument only models divergence of the Python
`while` loop; it is chosen so that it cannot run out when the pointer
chain is acyclic. -/
def reconstructPath (pred : List (V × Option V)) : ℕ → V → List V → Except PyErr (List V)
  | 0, _, _ => .error .nonTermination
  | fuel + 1, cur, acc =>
    match alookup cur pred with
    | none => .error .keyError
    | some none => .ok ((acc ++ [cur]).reverse)
    | some (some p) => reconstructPath pred fuel p (acc ++ [cur])

/-- One iteration of the `while queue` loop of
`dijkstra_shortest_path`: pop the least entry; if it is `end`,
reconstruct and return; otherwise relax all neighbors.  `Sum.inr` is a
`return`, `Sum.inl` the state for the next iteration; an empty queue
returns `(None, float('inf'))`. -/
def dijkstraStep (G : PyGraph V) (endv : V) (distKeys : List V) (st : DState V) :
    Except PyErr (DState V ⊕ (Option (List V) × ℕ∞)) :=
  match st.queue with
  | [] => .ok (.inr (none, ⊤))
  | (d, u) :: rest =>
    if u = endv then
      match reconstructPath st.pred (st.pred.length + 1) u [] with
      | .error e => .error e
      | .ok path => .ok (.inr (some path, st.dist endv))
    else
      match getAdj G u with
      | none => .error .keyError
      | some items =>
        match relaxNbrs distKeys d u items st.dist st.pred rest with
        | .error e => .error e
        | .ok (dist', pred', queue') => .ok (.inl ⟨dist', pred', queue'⟩)

/-- Number of keys with infinite recorded distance (first component of
the termination measure). -/
def distTops : List V → (V → ℕ∞) → ℕ
  | [], _ => 0
  | k :: ks, dist => (if dist k = ⊤ then 1 else 0) + distTops ks dist

/-- Total of the finite recorded distances (second component of the
termination measure). -/
def distSum : List V → (V → ℕ∞) → ℕ
  | [], _ => 0
  | k :: ks, dist => (dist k).toNat + distSum ks dist

theorem distTops_le {dist dist' : V → ℕ∞} (keys : List V)
    (hle : ∀ v, dist' v ≤ dist v) :
    distTops keys dist' ≤ distTops keys dist := by
  induction keys with
  | nil => exact le_refl 0
  | cons k ks ih =>
    simp only [distTops]
    have h2 := ih
    by_cases h3 : dist k = ⊤
    · rw [if_pos h3]
      by_cases h1 : dist' k = ⊤
      · rw [if_pos h1]; omega
      · rw [if_neg h1]; omega
    · have h1 : dist' k ≠ ⊤ := fun hh => h3 (top_le_iff.mp (hh ▸ hle k))
      rw [if_neg h1, if_neg h3]
      omega

theorem distSum_le {dist dist' : V → ℕ∞} (keys : List V)
    (hle : ∀ v, dist' v ≤ dist v)
    (htops : ∀ v ∈ keys, dist v = ⊤ → dist' v = ⊤) :
    distSum keys dist' ≤ distSum keys dist := by
  induction keys with
  | nil => exact le_refl 0
  | cons k ks ih =>
    simp only [distSum]
    have h1 : (dist' k).toNat ≤ (dist k).toNat := by
      by_cases h : dist k = ⊤
      · rw [h, htops k (by simp) h]
      · have h2 : dist' k ≠ ⊤ := fun hh => h (top_le_iff.mp (hh ▸ hle k))
        have hlek := hle k
        lift dist k to ℕ using h with n hn
        lift dist' k to ℕ using h2 with m hm
        simpa using hlek
    have h3 := ih (fun v hv => htops v (List.mem_cons_of_mem _ hv))
    omega

theorem distTops_lt {dist dist' : V → ℕ∞} (keys : List V)
    (hle : ∀ v, dist' v ≤ dist v) {w : V} (hw : w ∈ keys)
    (hwt : dist w = ⊤) (hwt' : dist' w ≠ ⊤) :
    distTops keys dist' < distTops keys dist := by
  induction keys with
  | nil => cases hw
  | cons a l ih =>
    simp only [distTops]
    rcases List.mem_cons.mp hw with rfl | hw2
    · have hrest := @distTops_le _ _ dist dist' l hle
      rw [if_pos hwt, if_neg hwt']
      omega
    · have h2 := ih hw2
      by_cases h3 : dist a = ⊤
      · rw [if_pos h3]
        by_cases h1 : dist' a = ⊤
        · rw [if_pos h1]; omega
        · rw [if_neg h1]; omega
      · have h1 : dist' a ≠ ⊤ := fun hh => h3 (top_le_iff.mp (hh ▸ hle a))
        rw [if_neg h1, if_neg h3]
        omega

theorem distTops_eq {dist dist' : V → ℕ∞} (keys : List V)
    (hle : ∀ v, dist' v ≤ dist v)
    (htop : ∀ v ∈ keys, dist v = ⊤ → dist' v = ⊤) :
    distTops keys dist' = distTops keys dist := by
  induction keys with
  | nil => rfl
  | cons a l ih =>
    simp only [distTops]
    have h2 := ih (fun x hx => htop x (List.mem_cons_of_mem _ hx))
    by_cases h3 : dist a = ⊤
    · rw [if_pos h3, if_pos (htop a (by simp) h3)]
      omega
    · have h1 : dist' a ≠ ⊤ := fun hh => h3 (top_le_iff.mp (hh ▸ hle a))
      rw [if_neg h1, if_neg h3]
      omega

theorem distSum_lt {dist dist' : V → ℕ∞} (keys : List V)
    (hle : ∀ v, dist' v ≤ dist v)
    (htop : ∀ v ∈ keys, dist v = ⊤ → dist' v = ⊤)
    {v₀ : V} (hv₀ : v₀ ∈ keys) (hlt : (dist' v₀).toNat < (dist v₀).toNat) :
    distSum keys dist' < distSum keys dist := by
  induction keys with
  | nil => cases hv₀
  | cons a l ih =>
    simp only [distSum]
    have hx : ∀ x ∈ l, dist x = ⊤ → dist' x = ⊤ :=
      fun x hx => htop x (List.mem_cons_of_mem _ hx)
    have ha : (dist' a).toNat ≤ (dist a).toNat := by
      by_cases h : dist a = ⊤
      · rw [h, htop a (by simp) h]
      · have h2 : dist' a ≠ ⊤ := fun hh => h (top_le_iff.mp (hh ▸ hle a))
        have hlea := hle a
        lift dist a to ℕ using h with n hn
        lift dist' a to ℕ using h2 with m hm
        simpa using hlea
    rcases List.mem_cons.mp hv₀ with rfl | hv₀2
    · have hrest : distSum l dist' ≤ distSum l dist := distSum_le l hle hx
      omega
    · have := ih hx hv₀2
      omega

/-- Strict decrease of the `(tops, sum)` part of the measure when some
key's distance strictly drops. -/
theorem measure_decrease {dist dist' : V → ℕ∞} (keys : List V)
    (hle : ∀ v, dist' v ≤ dist v) {v₀ : V} (hv₀ : v₀ ∈ keys)
    (hlt : dist' v₀ < dist v₀) :
    distTops keys dist' < distTops keys dist ∨
      (distTops keys dist' = distTops keys dist ∧
        distSum keys dist' < distSum keys dist) := by
  by_cases htop : ∃ v ∈ keys, dist v = ⊤ ∧ dist' v ≠ ⊤
  · obtain ⟨w, hw, hwt, hwt'⟩ := htop
    exact Or.inl (distTops_lt keys hle hw hwt hwt')
  · push_neg at htop
    right
    refine ⟨distTops_eq keys hle htop, ?_⟩
    have hv₀fin : dist v₀ ≠ ⊤ := by
      intro h
      have := htop v₀ hv₀ h
      rw [h, this] at hlt
      exact lt_irrefl ⊤ hlt
    have h2 : dist' v₀ ≠ ⊤ := fun hh => hv₀fin (top_le_iff.mp (hh ▸ hle v₀))
    refine distSum_lt keys hle htop hv₀ ?_
    lift dist v₀ to ℕ using hv₀fin with n hn
    lift dist' v₀ to ℕ using h2 with m hm
    exact_mod_cast hlt

/-- Effect of the relaxation loop needed for termination: either it is a
strict no-op on distances and the queue, or some key's distance strictly
drops while none grows. -/
theorem relaxNbrs_term {distKeys : List V} {d : ℕ} {u : V} :
    ∀ {items : List (V × Option ℕ)} {dist : V → ℕ∞} {pred : List (V × Option V)}
      {queue : List (ℕ × V)} {dist' : V → ℕ∞} {pred' : List (V × Option V)}
      {queue' : List (ℕ × V)},
    relaxNbrs distKeys d u items dist pred queue = .ok (dist', pred', queue') →
    (dist' = dist ∧ queue' = queue) ∨
      ((∀ v, dist' v ≤ dist v) ∧ ∃ v ∈ distKeys, dist' v < dist v) := by
  intro items
  induction items with
  | nil =>
    intro dist pred queue dist' pred' queue' h
    simp only [relaxNbrs, Except.ok.injEq] at h
    obtain ⟨rfl, -, rfl⟩ := h
    exact Or.inl ⟨rfl, rfl⟩
  | cons p items ih =>
    intro dist pred queue dist' pred' queue' h
    obtain ⟨w, attr⟩ := p
    simp only [relaxNbrs] at h
    by_cases hw : w ∈ distKeys
    · rw [if_pos hw] at h
      by_cases hlt : ((d + pyWeight attr : ℕ) : ℕ∞) < dist w
      · rw [if_pos hlt] at h
        rcases ih h with ⟨hdist, -⟩ | ⟨hle, -⟩
        · right
          constructor
          · intro v
            rw [hdist]
            by_cases hv : v = w
            · subst hv; simp only [if_pos rfl]; exact le_of_lt hlt
            · simp [hv]
          · exact ⟨w, hw, by rw [hdist]; simpa using hlt⟩
        · right
          constructor
          · intro v
            refine le_trans (hle v) ?_
            by_cases hv : v = w
            · subst hv; simp only [if_pos rfl]; exact le_of_lt hlt
            · simp [hv]
          · refine ⟨w, hw, lt_of_le_of_lt (hle w) ?_⟩
            simpa using hlt
      · rw [if_neg hlt] at h
        exact ih h
    · rw [if_neg hw] at h
      cases h

end DijkstraDefs

section DijkstraLoop

variable {V : Type} [LinearOrder V]

open PyGraph

/-- Each continuing iteration of the main loop strictly decreases the
lexicographic measure `(#infinite distances, sum of finite distances,
queue length)`. -/
theorem dijkstraStep_measure {G : PyGraph V} {endv : V} {distKeys : List V}
    {dist0 : V → ℕ∞} {pred0 : List (V × Option V)} {queue0 : List (ℕ × V)}
    {dist' : V → ℕ∞} {pred' : List (V × Option V)} {queue' : List (ℕ × V)}
    (h : dijkstraStep G endv distKeys ⟨dist0, pred0, queue0⟩
        = .ok (.inl ⟨dist', pred', queue'⟩)) :
    distTops distKeys dist' < distTops distKeys dist0 ∨
      (distTops distKeys dist' = distTops distKeys dist0 ∧
        distSum distKeys dist' < distSum distKeys dist0) ∨
      (dist' = dist0 ∧ queue'.length < queue0.length) := by
  cases queue0 with
  | nil => simp [dijkstraStep] at h
  | cons e rest =>
    obtain ⟨d, u⟩ := e
    simp only [dijkstraStep] at h
    split at h
    · split at h <;> simp at h
    · split at h
      · simp at h
      next items hadj =>
        rcases hrel : relaxNbrs distKeys d u items dist0 pred0 rest with e | ⟨D, P, Q⟩
        · rw [hrel] at h
          simp at h
        · rw [hrel] at h
          simp only [Except.ok.injEq, Sum.inl.injEq, DState.mk.injEq] at h
          obtain ⟨h1, h2, h3⟩ := h
          subst h1
          subst h2
          subst h3
          rcases relaxNbrs_term hrel with ⟨hd, hqe⟩ | ⟨hle, v₀, hv₀, hlt⟩
          · refine Or.inr (Or.inr ⟨hd, ?_⟩)
            rw [hqe]
            simp
          · rcases measure_decrease distKeys hle hv₀ hlt with h1 | ⟨h1, h2⟩
            · exact Or.inl h1
            · exact Or.inr (Or.inl ⟨h1, h2⟩)

/-- The `while queue` loop of `dijkstra_shortest_path`. -/
def dijkstraLoop (G : PyGraph V) (endv : V) (distKeys : List V) (st : DState V) :
    Except PyErr (Option (List V) × ℕ∞) :=
  match h : dijkstraStep G endv distKeys st with
  | .error e => .error e
  | .ok (.inr r) => .ok r
  | .ok (.inl st') => dijkstraLoop G endv distKeys st'
termination_by (distTops distKeys st.dist, distSum distKeys st.dist, st.queue.length)
decreasing_by
  obtain ⟨dist0, pred0, queue0⟩ := st
  obtain ⟨dist1, pred1, queue1⟩ := st'
  rcases dijkstraStep_measure h with h1 | ⟨h1, h2⟩ | ⟨h1, h2⟩
  · exact Prod.Lex.left _ _ h1
  · rw [h1]
    exact Prod.Lex.right _ (Prod.Lex.left _ _ h2)
  · rw [h1]
    exact Prod.Lex.right _ (Prod.Lex.right _ h2)

/-- Embedding of `dijkstra_shortest_path(G, start, end)`
(`src/graph_utils/dijkstra.py`, lines 61-90): initialise `distances` to
infinity except `start` at `0`, `predecessors` to `None` on the graph
nodes, the heap to `[(0, start)]`, then run the main loop. -/
def dijkstra_shortest_path (G : PyGraph V) (start endv : V) :
    Except PyErr (Option (List V) × ℕ∞) :=
  dijkstraLoop G endv (dijkstraDistKeys G start)
    ⟨fun v => if v = start then 0 else ⊤,
      G.nodes.map (fun v => (v, none)),
      [(0, start)]⟩

/-- The ordered pairs `(nodes[i], nodes[j])`, `i < j`, enumerated the way
`all_pairs_shortest_paths` iterates (`for i, start in enumerate(nodes):
for end in nodes[i+1:]`). -/
def ordPairs : List V → List (V × V)
  | [] => []
  | x :: xs => xs.map (fun y => (x, y)) ++ ordPairs xs

/-- The inner accumulation of `all_pairs_shortest_paths`: run Dijkstra
on each pair in order, keeping `(path, distance)` when the returned
path is truthy (a nonempty list). -/
def allPairsGo (G : PyGraph V) :
    List (V × V) → Except PyErr (List ((V × V) × (List V × ℕ∞)))
  | [] => .ok []
  | (s, t) :: ps =>
    match dijkstra_shortest_path G s t with
    | .error e => .error e
    | .ok (pathOpt, dval) =>
      match allPairsGo G ps with
      | .error e => .error e
      | .ok m =>
        match pathOpt with
        | some path => if path = [] then .ok m else .ok (((s, t), (path, dval)) :: m)
        | none => .ok m

/-- Embedding of `all_pairs_shortest_paths(G)`
(`src/graph_utils/dijkstra.py`, lines 92-111): the result dict as an
association list in insertion order (progress printing has no effect on
the result and is not modelled). -/
def all_pairs_shortest_paths (G : PyGraph V) :
    Except PyErr (List ((V × V) × (List V × ℕ∞))) :=
  allPairsGo G (ordPairs G.nodes)

end DijkstraLoop

section BfsDfsDefs

variable {V : Type} [LinearOrder V]

open PyGraph

/-- The neighbor-processing loop shared by `bfs_path` and `dfs_path`
(`for neighbor in G.neighbors(current)` in `pathfinding.py`): unvisited
neighbors are marked visited, given a parent pointer, and appended to
the queue (BFS) or stack (DFS) — both append on the right. -/
def processNbrs (u : V) :
    List (V × Option ℕ) → List V → List (V × Option V) → List V →
    List V × List (V × Option V) × List V
  | [], visited, parent, queue => (visited, parent, queue)
  | (w, _) :: items, visited, parent, queue =>
    if w ∈ visited then processNbrs u items visited parent queue
    else processNbrs u items (visited ++ [w]) (aset w (some u) parent) (queue ++ [w])

/-- A finite superset of every vertex the searches can ever visit:
`start`, the nodes, and every adjacency-list target.  Used only as a
termination measure. -/
def searchUniverse (G : PyGraph V) (start : V) : List V :=
  start :: (G.nodes ++ G.nodes.flatMap fun u => (G.adj u).map Prod.fst)

/-- Number of universe elements not yet visited (termination measure). -/
def unvisited (U visited : List V) : ℕ :=
  U.countP fun x => decide (x ∉ visited)

theorem unvisited_le {U visited visited' : List V}
    (hsub : ∀ x ∈ visited, x ∈ visited') :
    unvisited U visited' ≤ unvisited U visited := by
  apply List.countP_mono_left
  intro a _ h
  simp only [decide_eq_true_eq] at h ⊢
  exact fun hmem => h (hsub a hmem)

theorem unvisited_lt {U visited visited' : List V}
    (hsub : ∀ x ∈ visited, x ∈ visited') {a : V}
    (haU : a ∈ U) (hav : a ∉ visited) (hav' : a ∈ visited') :
    unvisited U visited' < unvisited U visited := by
  induction U with
  | nil => cases haU
  | cons b U ih =>
    simp only [unvisited, List.countP_cons]
    rcases List.mem_cons.mp haU with rfl | hb
    · have h1 := unvisited_le (U := U) hsub
      simp only [unvisited] at h1
      rw [if_neg (by simpa using hav'), if_pos (by simpa using hav)]
      omega
    · have h2 := ih hb
      simp only [unvisited] at h2
      have h3 : (if decide (b ∉ visited') = true then 1 else 0)
          ≤ (if decide (b ∉ visited) = true then 1 else 0) := by
        by_cases hbv' : b ∈ visited'
        · rw [if_neg (by simpa using hbv')]
          exact Nat.zero_le _
        · rw [if_pos (by simpa using hbv'),
            if_pos (by simpa using fun h => hbv' (hsub b h))]
      omega

/-- Effect of the neighbor-processing loop: visited and queue grow by
the same new elements, each a neighbor not previously visited. -/
theorem processNbrs_spec {u : V} :
    ∀ {items : List (V × Option ℕ)} {visited : List V}
      {parent : List (V × Option V)} {queue : List V}
      {visited' : List V} {parent' : List (V × Option V)} {queue' : List V},
    processNbrs u items visited parent queue = (visited', parent', queue') →
    ∃ added : List V, visited' = visited ++ added ∧ queue' = queue ++ added ∧
      (∀ a ∈ added, a ∈ items.map Prod.fst ∧ a ∉ visited) := by
  intro items
  induction items with
  | nil =>
    intro visited parent queue visited' parent' queue' h
    simp only [processNbrs, Prod.mk.injEq] at h
    obtain ⟨rfl, -, rfl⟩ := h
    exact ⟨[], by simp⟩
  | cons p items ih =>
    intro visited parent queue visited' parent' queue' h
    obtain ⟨w, attr⟩ := p
    simp only [processNbrs] at h
    by_cases hw : w ∈ visited
    · rw [if_pos hw] at h
      obtain ⟨added, h1, h2, h3⟩ := ih h
      exact ⟨added, h1, h2, fun a ha =>
        ⟨List.mem_cons_of_mem _ (h3 a ha).1, (h3 a ha).2⟩⟩
    · rw [if_neg hw] at h
      obtain ⟨added, h1, h2, h3⟩ := ih h
      refine ⟨w :: added, by simpa using h1, by simpa using h2, ?_⟩
      intro a ha
      rcases List.mem_cons.mp ha with rfl | ha2
      · exact ⟨by simp, hw⟩
      · refine ⟨List.mem_cons_of_mem _ (h3 a ha2).1, fun hmem => (h3 a ha2).2 ?_⟩
        simp [hmem]

/-- Targets of an adjacency list are in the search universe. -/
theorem adjTarget_mem_universe {G : PyGraph V} {start u a : V}
    (hu : u ∈ G.nodes) (ha : a ∈ (G.adj u).map Prod.fst) :
    a ∈ searchUniverse G start := by
  unfold searchUniverse
  refine List.mem_cons_of_mem _ (List.mem_append_right _ ?_)
  exact List.mem_flatMap.mpr ⟨u, hu, ha⟩

/-- `getAdj` succeeds exactly on nodes, returning the adjacency list. -/
theorem getAdj_eq_some {G : PyGraph V} {u : V} {items : List (V × Option ℕ)} :
    G.getAdj u = some items ↔ u ∈ G.nodes ∧ items = G.adj u := by
  unfold PyGraph.getAdj
  by_cases h : u ∈ G.nodes
  · simp [h, eq_comm]
  · simp [h]

/-- The `while queue` loop of `bfs_path`: FIFO pop from the left. -/
def bfsLoop (G : PyGraph V) (endv : V) (visited : List V)
    (parent : List (V × Option V)) (queue : List V) :
    Except PyErr (Option (List V)) :=
  match queue with
  | [] => .ok none
  | u :: rest =>
    if u = endv then
      match reconstructPath parent (parent.length + 1) u [] with
      | .error e => .error e
      | .ok path => .ok (some path)
    else
      match hadj : PyGraph.getAdj G u with
      | none => .error .keyError
      | some items =>
        match hpn : processNbrs u items visited parent rest with
        | (visited', parent', queue') => bfsLoop G endv visited' parent' queue'
termination_by (unvisited (searchUniverse G endv) visited, queue.length)
decreasing_by
  obtain ⟨added, h1, h2, h3⟩ := processNbrs_spec hpn
  cases added with
  | nil =>
    rw [List.append_nil] at h1 h2
    rw [h1, h2]
    exact Prod.Lex.right _ (by simp)
  | cons a added =>
    apply Prod.Lex.left
    have hu := getAdj_eq_some.mp hadj
    have haU : a ∈ searchUniverse G endv :=
      adjTarget_mem_universe hu.1 (hu.2 ▸ (h3 a (by simp)).1)
    exact unvisited_lt (fun x hx => h1 ▸ List.mem_append_left _ hx) haU
      (h3 a (by simp)).2 (h1 ▸ List.mem_append_right _ (by simp))

/-- Embedding of `bfs_path(G, start, end)`
(`src/graph_utils/pathfinding.py`, lines 43-78): absent endpoints give
`None` up front; otherwise run the FIFO loop from
`visited = {start}`, `parent = {start: None}`, `queue = deque([start])`. -/
def bfs_path (G : PyGraph V) (start endv : V) : Except PyErr (Option (List V)) :=
  if start ∉ G.nodes ∨ endv ∉ G.nodes then .ok none
  else bfsLoop G endv [start] [(start, none)] [start]

/-- The `while stack` loop of `dfs_path`: LIFO pop from the right
(`stack.pop()` removes the last element of a Python list). -/
def dfsLoop (G : PyGraph V) (endv : V) (visited : List V)
    (parent : List (V × Option V)) (stack : List V) :
    Except PyErr (Option (List V)) :=
  match hpop : stack.getLast? with
  | none => .ok none
  | some u =>
    if u = endv then
      match reconstructPath parent (parent.length + 1) u [] with
      | .error e => .error e
      | .ok path => .ok (some path)
    else
      match hadj : PyGraph.getAdj G u with
      | none => .error .keyError
      | some items =>
        match hpn : processNbrs u items visited parent stack.dropLast with
        | (visited', parent', stack') => dfsLoop G endv visited' parent' stack'
termination_by (unvisited (searchUniverse G endv) visited, stack.length)
decreasing_by
  obtain ⟨added, h1, h2, h3⟩ := processNbrs_spec hpn
  have hlen : stack.dropLast.length < stack.length := by
    cases stack with
    | nil => simp at hpop
    | cons b l => simp
  cases added with
  | nil =>
    rw [List.append_nil] at h1 h2
    rw [h1, h2]
    exact Prod.Lex.right _ hlen
  | cons a added =>
    apply Prod.Lex.left
    have hu := getAdj_eq_some.mp hadj
    have haU : a ∈ searchUniverse G endv :=
      adjTarget_mem_universe hu.1 (hu.2 ▸ (h3 a (by simp)).1)
    exact unvisited_lt (fun x hx => h1 ▸ List.mem_append_left _ hx) haU
      (h3 a (by simp)).2 (h1 ▸ List.mem_append_right _ (by simp))

/-- Embedding of `dfs_path(G, start, end)`
(`src/graph_utils/pathfinding.py`, lines 5-40): absent endpoints give
`None` up front; otherwise run the LIFO loop from `visited = {start}`,
`parent = {start: None}`, `stack = [start]`. -/
def dfs_path (G : PyGraph V) (start endv : V) : Except PyErr (Option (List V)) :=
  if start ∉ G.nodes ∨ endv ∉ G.nodes then .ok none
  else dfsLoop G endv [start] [(start, none)] [start]

end BfsDfsDefs

section ChainDefs

variable {V : Type} [LinearOrder V]

open PyGraph

/-- `Linked G dist pred x r`: from `x`, each successive vertex of `r` is
reached by an edge, carries a predecessor pointer to the previous
vertex, and its recorded distance dominates the previous distance plus
the edge weight. -/
def Linked (G : PyGraph V) (dist : V → ℕ∞) (pred : List (V × Option V)) :
    V → List V → Prop
  | _, [] => True
  | x, z :: r =>
    (∃ attr, alookup z pred = some (some x) ∧ G.edgeAttr x z = some attr ∧
      dist x + (pyWeight attr : ℕ∞) ≤ dist z) ∧ Linked G dist pred z r

/-- A rooted predecessor chain: the start vertex with a `None` pointer,
followed by linked steps ending at `v`, visiting pairwise distinct
vertices. -/
def PredChain (G : PyGraph V) (dist : V → ℕ∞) (pred : List (V × Option V))
    (start : V) (l : List V) (v : V) : Prop :=
  ∃ r, l = start :: r ∧ alookup start pred = some none ∧
    Linked G dist pred start r ∧ lastD start r = v ∧ (start :: r).Nodup

/-- Invariant of the main loop of `dijkstra_shortest_path` (stated for a
start vertex that is a node, so that the `distances` keys are exactly
`G.nodes`). -/
structure DInv (G : PyGraph V) (start endv : V) (dist : V → ℕ∞)
    (pred : List (V × Option V)) (queue : List (ℕ × V)) : Prop where
  sorted : queue.Sorted entryLE
  qmem : ∀ e ∈ queue, e.2 ∈ G.nodes
  qge : ∀ e ∈ queue, dist e.2 ≤ (e.1 : ℕ∞)
  start0 : dist start = 0
  fin_nodes : ∀ v, dist v < ⊤ → v ∈ G.nodes
  fresh : ∀ v ∈ G.nodes, dist v < ⊤ →
    (∃ d : ℕ, (d : ℕ∞) = dist v ∧ (d, v) ∈ queue) ∨
    (dist v = delta G start v ∧
      ∀ p ∈ G.adj v, dist p.1 ≤ dist v + (pyWeight p.2 : ℕ∞))
  endq : (∃ d : ℕ, (d : ℕ∞) = dist endv ∧ (d, endv) ∈ queue) ∨ dist endv = ⊤
  chains : ∀ v, dist v < ⊤ → ∃ l, PredChain G dist pred start l v

end ChainDefs

section BuilderDefs

/-!
Embedding of `src/graph_utils/graph_builder.py`.  A `pandas.DataFrame`
is a list of column names plus a list of rows, each row an association
list from column name to cell; cells are integers, strings, or missing
(`NaN`).  Column lookups made with `df[...]`, `sort_values`, `groupby`,
`merge` or row indexing raise `KeyError` when the column is absent,
while `row.get(col, default)` falls back to the default.  Aggregated
node coordinates (`lat`/`lon` means) and the per-edge `route_ids` /
`route_types` sets are not needed by any verified property and are not
carried, but the column checks that computing them performs are kept.
-/

/-- A cell of a GTFS table. -/
inductive Cell where
  | num (n : ℤ)
  | str (s : String)
  | na
deriving DecidableEq, Repr

/-- A DataFrame row. -/
abbrev Row : Type := List (String × Cell)

/-- A DataFrame: column names and rows. -/
structure DF where
  cols : List String
  rows : List Row

/-- `row[c]` with the guarantee (from the frame) that the column exists;
absent cells read as `NaN`. -/
def rowGet (r : Row) (c : String) : Cell :=
  (alookup c r).getD .na

/-- `row.get(c, default)`. -/
def rowGetD (r : Row) (c : String) (d : Cell) : Cell :=
  (alookup c r).getD d

/-- `df[c]`-style column access gate: `KeyError` when the column is
missing. -/
def requireCol (df : DF) (c : String) : Except PyErr Unit :=
  if c ∈ df.cols then .ok () else .error .keyError

/-- `str(cell)` for the cell kinds that reach it. -/
def cellStr : Cell → String
  | .num n => toString n
  | .str s => s
  | .na => "nan"

/-- Python truthiness of a cell (`not time_str`). -/
def cellFalsy : Cell → Bool
  | .num n => n = 0
  | .str s => s = ""
  | .na => false

/-- Strip leading and trailing whitespace from a character list
(`str.strip()`). -/
def charsTrim (l : List Char) : List Char :=
  ((l.dropWhile Char.isWhitespace).reverse.dropWhile Char.isWhitespace).reverse

/-- The value of a decimal digit character. -/
def digitVal (c : Char) : Option ℕ :=
  if 48 ≤ c.toNat ∧ c.toNat ≤ 57 then some (c.toNat - 48) else none

/-- Read a digit run into an accumulator; `none` on a non-digit. -/
def charsNatAux : List Char → ℕ → Option ℕ
  | [], acc => some acc
  | c :: cs, acc =>
    match digitVal c with
    | none => none
    | some d => charsNatAux cs (acc * 10 + d)

/-- `int(s)` on the strings of this pipeline: surrounding whitespace is
tolerated, an optional sign precedes a nonempty digit run; `none`
models the `ValueError` Python raises on a non-numeric field. -/
def charsInt? (l : List Char) : Option ℤ :=
  match charsTrim l with
  | [] => none
  | '-' :: cs =>
    if cs = [] then none else (charsNatAux cs 0).map (fun n => -(n : ℤ))
  | '+' :: cs =>
    if cs = [] then none else (charsNatAux cs 0).map (fun n => (n : ℤ))
  | cs => (charsNatAux cs 0).map (fun n => (n : ℤ))

/-- `s.split(sep)` on character lists (`"".split` gives `[""]`). -/
def splitSep (sep : Char) : List Char → List (List Char)
  | [] => [[]]
  | c :: cs =>
    if c = sep then [] :: splitSep sep cs
    else
      match splitSep sep cs with
      | [] => [[c]]
      | p :: ps => (c :: p) :: ps

/-- `int(s)` (`map(int, parts)` in `parse_gtfs_time`). -/
def pyInt (s : String) : Option ℤ :=
  charsInt? s.data

/-- Embedding of `parse_gtfs_time(time_str)`
(`src/graph_utils/graph_builder.py`, lines 33-44): `NaN` and falsy
values parse to `0`; a `HH:MM:SS` string (hours may exceed 23) parses
to seconds past midnight; any other number of `:`-separated fields
parses to `0`; a three-field string with a non-integer field raises
`ValueError` via `map(int, parts)`. -/
def parse_gtfs_time (c : Cell) : Except PyErr ℤ :=
  if c = .na then .ok 0
  else if cellFalsy c then .ok 0
  else
    match splitSep ':' (cellStr c).data with
    | [p1, p2, p3] =>
      match charsInt? p1, charsInt? p2, charsInt? p3 with
      | some h, some m, some s => .ok (h * 3600 + m * 60 + s)
      | _, _, _ => .error .valueError
    | _ => .ok 0

/-- Lexicographic (code-point) string comparison, the order Python uses
on `str`. -/
def charListLE : List Char → List Char → Bool
  | [], _ => true
  | _ :: _, [] => false
  | a :: as, b :: bs =>
    if a.toNat < b.toNat then true
    else if b.toNat < a.toNat then false
    else charListLE as bs

/-- Ordering used when sorting cells (`sort_values`); the GTFS inputs
sorted with it are homogeneous columns of integers or strings. -/
def cellLE : Cell → Cell → Bool
  | .num a, .num b => decide (a ≤ b)
  | .str a, .str b => charListLE a.data b.data
  | .na, _ => false
  | _, .na => true
  | .num _, .str _ => true
  | .str _, .num _ => false

/-- The undirected HVV graph assembled by `build_hvv_graph`: node ids
(cluster names) and edges keyed by unordered endpoint pairs, each with
its list of `travel_time` samples in insertion order. -/
structure HvvGraph where
  nodes : List String
  edges : List ((String × String) × List ℤ)
deriving Repr

/-- `G.has_edge(u, v)`-style lookup, in either orientation. -/
def edgeFind (u v : String) :
    List ((String × String) × List ℤ) → Option (List ℤ)
  | [] => none
  | (k, ts) :: es =>
    if (k.1 = u ∧ k.2 = v) ∨ (k.1 = v ∧ k.2 = u) then some ts
    else edgeFind u v es

/-- `G.add_edge` / `G[u][v]["travel_time"].append(t)`: append the sample
to an existing undirected edge, or create the edge. -/
def edgeAdd (u v : String) (t : ℤ) :
    List ((String × String) × List ℤ) → List ((String × String) × List ℤ)
  | [] => [((u, v), [t])]
  | (k, ts) :: es =>
    if (k.1 = u ∧ k.2 = v) ∨ (k.1 = v ∧ k.2 = u) then (k, ts ++ [t]) :: es
    else (k, ts) :: edgeAdd u v t es

/-- The per-trip node/time collection loop of `build_hvv_graph`
(lines 108-119): map each stop to its cluster node via
`stop_id_to_node.get(...)`; a missing mapping (`None`) or a falsy node
id (`""`) is skipped (`if node:`); otherwise parse the row's
`arrival_time`/`departure_time` (defaulting to `""` when the column is
absent) and record `(node, arrival, departure)`. -/
def tripNodesTimes (mapping : List (Cell × String)) :
    List Row → Except PyErr (List (String × ℤ × ℤ))
  | [] => .ok []
  | row :: rest =>
    match alookup (rowGet row "stop_id") mapping with
    | none => tripNodesTimes mapping rest
    | some n =>
      if n = "" then tripNodesTimes mapping rest
      else
        match parse_gtfs_time (rowGetD row "arrival_time" (.str "")) with
        | .error e => .error e
        | .ok arr =>
          match parse_gtfs_time (rowGetD row "departure_time" (.str "")) with
          | .error e => .error e
          | .ok dep =>
            match tripNodesTimes mapping rest with
            | .error e => .error e
            | .ok l => .ok ((n, arr, dep) :: l)

/-- The travel time of one segment: `arrival(next) − departure(current)`
with `24 * 3600` added once if negative (midnight rollover),
lines 125-129. -/
def segTime (depCur arrNext : ℤ) : ℤ :=
  let t := arrNext - depCur
  if t < 0 then t + 24 * 3600 else t

/-- The edge-creation loop over consecutive node pairs of one trip
(lines 121-144).  In the source the index guard `i + 1 < len(times)`
always holds because `times` and `nodes` grow in lockstep, so its `else`
branch (`travel_time = 60`) is dead; the pairing below reflects that. -/
def addTripEdges : List (String × ℤ × ℤ) →
    List ((String × String) × List ℤ) → List ((String × String) × List ℤ)
  | [], es => es
  | [_], es => es
  | (u, pu) :: (v, pv) :: rest, es =>
    if u = v then addTripEdges ((v, pv) :: rest) es
    else addTripEdges ((v, pv) :: rest) (edgeAdd u v (segTime pu.2 pv.1) es)

/-- Process every trip group in order: collect its node/time sequence,
then create its edges. -/
def buildAllTrips (mapping : List (Cell × String)) :
    List (List Row) → List ((String × String) × List ℤ) →
    Except PyErr (List ((String × String) × List ℤ))
  | [], es => .ok es
  | g :: gs, es =>
    match tripNodesTimes mapping g with
    | .error e => .error e
    | .ok nt => buildAllTrips mapping gs (addTripEdges nt es)

/-- Stable insertion into a `le`-sorted list. -/
def insertLE {α : Type} (le : α → α → Bool) (a : α) : List α → List α
  | [] => [a]
  | b :: bs => if le a b then a :: b :: bs else b :: insertLE le a bs

/-- Stable insertion sort: the order `sort_values` / `sorted` produce. -/
def sortLE {α : Type} (le : α → α → Bool) : List α → List α
  | [] => []
  | a :: as => insertLE le a (sortLE le as)

/-- `stops["stop_name"].str.strip()` on one stops row; `NaN` names stay
`NaN` (and later fall out of the `groupby`). -/
def stripName : Cell → Cell
  | .str s => .str (String.mk (charsTrim s.data))
  | .num n => .num n
  | .na => .na

/-- Embedding of `build_stop_clusters(stops, used_stop_ids)`
(lines 4-31): keep the used stops, strip their names, group by the
cleaned name (`groupby` sorts its keys and drops `NaN`), and map every
grouped `stop_id` to its cluster's node id. -/
def build_stop_clusters (stops : List Row) (used : List Cell) :
    List String × List (Cell × String) :=
  let usedRows := stops.filter fun r => decide (rowGet r "stop_id" ∈ used)
  let named := usedRows.filterMap fun r =>
    match stripName (rowGet r "stop_name") with
    | .str s => some (rowGet r "stop_id", s)
    | _ => none
  let nodeIds := sortLE (fun a b => charListLE a.data b.data)
    (named.map Prod.snd).dedup
  (nodeIds, named)

/-- Embedding of
`build_hvv_graph(stops, stop_times, trips, routes, allowed_route_types)`
(`src/graph_utils/graph_builder.py`, lines 46-146), with every
DataFrame column access gated exactly where the source performs it. -/
def build_hvv_graph (stops stopTimes trips routes : DF)
    (allowed : Option (List ℤ)) : Except PyErr HvvGraph := do
  -- routes[routes["route_type"].isin(allowed_route_types)]
  let routesSel ←
    match allowed with
    | some al => do
      let _ ← requireCol routes "route_type"
      pure (routes.rows.filter fun r =>
        match rowGet r "route_type" with
        | .num n => decide (n ∈ al)
        | _ => false)
    | none => pure routes.rows
  -- trips[trips["route_id"].isin(routes_sel["route_id"])]
  let _ ← requireCol routes "route_id"
  let _ ← requireCol trips "route_id"
  let routeIds := routesSel.map fun r => rowGet r "route_id"
  let tripsSel := trips.rows.filter fun r => decide (rowGet r "route_id" ∈ routeIds)
  -- stop_times[stop_times["trip_id"].isin(trips_sel["trip_id"])]
  let _ ← requireCol trips "trip_id"
  let _ ← requireCol stopTimes "trip_id"
  let tripIdsSel := tripsSel.map fun r => rowGet r "trip_id"
  let stopTimesSel := stopTimes.rows.filter fun r =>
    decide (rowGet r "trip_id" ∈ tripIdsSel)
  -- used_stop_ids = set(stop_times_sel["stop_id"].unique())
  let _ ← requireCol stopTimes "stop_id"
  let usedStopIds := (stopTimesSel.map fun r => rowGet r "stop_id").dedup
  -- build_stop_clusters touches stop_id, stop_name, stop_lat, stop_lon
  let _ ← requireCol stops "stop_id"
  let _ ← requireCol stops "stop_name"
  let _ ← requireCol stops "stop_lat"
  let _ ← requireCol stops "stop_lon"
  let clusters := build_stop_clusters stops.rows usedStopIds
  -- st = stop_times_sel.merge(trips_sel[["trip_id","route_id"]], ...)
  --        .merge(routes_sel[["route_id","route_type"]], ...)
  -- (the merged route columns are only stored in edge attributes that
  -- no verified property reads; the column gates are kept)
  let _ ← requireCol routes "route_type"
  -- st.sort_values(["trip_id", "stop_sequence"]).groupby("trip_id")
  let _ ← requireCol stopTimes "stop_sequence"
  let tripIds := sortLE cellLE
    ((stopTimesSel.map fun r => rowGet r "trip_id").dedup)
  let groups := tripIds.map fun tid =>
    sortLE (fun a b => cellLE (rowGet a "stop_sequence") (rowGet b "stop_sequence"))
      (stopTimesSel.filter fun r => decide (rowGet r "trip_id" = tid))
  let edges ← buildAllTrips clusters.2 groups []
  pure ⟨clusters.1, edges⟩

end BuilderDefs

section ChainLemmas

variable {V : Type} [LinearOrder V]

open PyGraph

theorem linked_append {G : PyGraph V} {dist : V → ℕ∞} {pred : List (V × Option V)}
    (x : V) (r₁ r₂ : List V) :
    Linked G dist pred x (r₁ ++ r₂) ↔
      Linked G dist pred x r₁ ∧ Linked G dist pred (lastD x r₁) r₂ := by
  induction r₁ generalizing x with
  | nil => simp [Linked, lastD]
  | cons b r ih =>
    simp only [List.cons_append, List.append_eq, Linked, ih b, lastD, and_assoc]

theorem linked_dist_le {G : PyGraph V} {dist : V → ℕ∞} {pred : List (V × Option V)}
    {x : V} {r : List V} (h : Linked G dist pred x r) :
    dist x ≤ dist (lastD x r) := by
  induction r generalizing x with
  | nil => exact le_refl _
  | cons z r ih =>
    obtain ⟨⟨attr, -, -, hle⟩, hr⟩ := h
    exact le_trans (le_trans le_self_add hle) (ih hr)

theorem linked_elem_ge {G : PyGraph V} {dist : V → ℕ∞} {pred : List (V × Option V)}
    {x : V} {r : List V} (h : Linked G dist pred x r) :
    ∀ z ∈ r, dist x ≤ dist z := by
  induction r generalizing x with
  | nil => intro z hz; cases hz
  | cons z' r ih =>
    obtain ⟨⟨attr, -, -, hle⟩, hr⟩ := h
    intro z hz
    rcases List.mem_cons.mp hz with rfl | hz2
    · exact le_trans le_self_add hle
    · exact le_trans (le_trans le_self_add hle) (ih hr z hz2)

theorem linked_elem_le_last {G : PyGraph V} {dist : V → ℕ∞}
    {pred : List (V × Option V)} {x : V} {r : List V}
    (h : Linked G dist pred x r) :
    ∀ z ∈ r, dist z ≤ dist (lastD x r) := by
  induction r generalizing x with
  | nil => intro z hz; cases hz
  | cons z' r ih =>
    obtain ⟨-, hr⟩ := h
    intro z hz
    rcases List.mem_cons.mp hz with rfl | hz2
    · exact linked_dist_le hr
    · exact ih hr z hz2

theorem linked_steps {G : PyGraph V} {dist : V → ℕ∞} {pred : List (V × Option V)}
    {x : V} {r : List V} (h : Linked G dist pred x r) :
    Steps G x r := by
  induction r generalizing x with
  | nil => trivial
  | cons z r ih =>
    obtain ⟨⟨attr, -, hedge, -⟩, hr⟩ := h
    exact ⟨by simp [hedge], ih hr⟩

theorem linked_keys {G : PyGraph V} {dist : V → ℕ∞} {pred : List (V × Option V)}
    {x : V} {r : List V} (h : Linked G dist pred x r) :
    ∀ z ∈ r, (alookup z pred).isSome := by
  induction r generalizing x with
  | nil => intro z hz; cases hz
  | cons z' r ih =>
    obtain ⟨⟨attr, hlook, -, -⟩, hr⟩ := h
    intro z hz
    rcases List.mem_cons.mp hz with rfl | hz2
    · simp [hlook]
    · exact ih hr z hz2

theorem linked_cost {G : PyGraph V} {dist : V → ℕ∞} {pred : List (V × Option V)}
    {x : V} {r : List V} (h : Linked G dist pred x r) :
    dist x + (costFrom (stepW G) x r : ℕ∞) ≤ dist (lastD x r) := by
  induction r generalizing x with
  | nil => simp [costFrom, lastD]
  | cons z r ih =>
    obtain ⟨⟨attr, -, hedge, hle⟩, hr⟩ := h
    have hsw : stepW G x z = pyWeight attr := by
      unfold PyGraph.stepW
      rw [hedge]
      rfl
    have h2 := ih hr
    simp only [costFrom, lastD, hsw]
    calc dist x + ((pyWeight attr + costFrom (stepW G) z r : ℕ) : ℕ∞)
        = (dist x + (pyWeight attr : ℕ∞)) + (costFrom (stepW G) z r : ℕ∞) := by
          push_cast; ring
      _ ≤ dist z + (costFrom (stepW G) z r : ℕ∞) := by
          exact add_le_add_right hle _
      _ ≤ dist (lastD z r) := h2

/-- A generic transfer of a linked list to a new state that agrees on
its vertices and does not increase the distance of its head. -/
theorem linked_transfer {G : PyGraph V} {dist dist' : V → ℕ∞}
    {pred pred' : List (V × Option V)} {x : V} {r : List V}
    (h : Linked G dist pred x r)
    (hsame : ∀ z ∈ r, alookup z pred' = alookup z pred ∧ dist' z = dist z)
    (hhead : dist' x ≤ dist x) :
    Linked G dist' pred' x r := by
  induction r generalizing x with
  | nil => trivial
  | cons z r ih =>
    obtain ⟨⟨attr, hlook, hedge, hle⟩, hr⟩ := h
    have hz := hsame z (by simp)
    refine ⟨⟨attr, by rw [hz.1, hlook], hedge, ?_⟩, ?_⟩
    · rw [hz.2]
      exact le_trans (add_le_add_right hhead _) hle
    · exact ih hr (fun w hw => hsame w (List.mem_cons_of_mem _ hw)) (le_of_eq hz.2)

/-- A predecessor chain is a walk whose cost is dominated by the
recorded distance of its endpoint. -/
theorem chain_walk {G : PyGraph V} {dist : V → ℕ∞} {pred : List (V × Option V)}
    {start v : V} {l : List V}
    (h : PredChain G dist pred start l v) (hstart0 : dist start = 0) :
    IsWalk G start v l ∧ (walkCost (stepW G) l : ℕ∞) ≤ dist v := by
  obtain ⟨r, rfl, -, hlink, hlast, -⟩ := h
  constructor
  · exact isWalk_cons.mpr ⟨linked_steps hlink, hlast⟩
  · have := linked_cost hlink
    rw [hstart0, zero_add, hlast] at this
    exact this

/-- The recorded distances dominate the true shortest distances. -/
theorem chains_delta_le {G : PyGraph V} {dist : V → ℕ∞}
    {pred : List (V × Option V)} {start : V}
    (hch : ∀ v, dist v < ⊤ → ∃ l, PredChain G dist pred start l v)
    (hstart0 : dist start = 0) (v : V) :
    delta G start v ≤ dist v := by
  by_cases hv : dist v < ⊤
  · obtain ⟨l, hl⟩ := hch v hv
    obtain ⟨hw, hc⟩ := chain_walk hl hstart0
    exact le_trans (deltaGen_le hw) hc
  · push_neg at hv
    exact le_trans le_top hv

/-- Reconstruction returns exactly the predecessor chain. -/
theorem chain_reconstruct {G : PyGraph V} {dist : V → ℕ∞}
    {pred : List (V × Option V)} {start : V} :
    ∀ {r : List V} {v : V} {l : List V},
    PredChain G dist pred start l v → l = start :: r →
    ∀ (acc : List V) (fuel : ℕ), l.length ≤ fuel →
    reconstructPath pred fuel v acc = .ok (l ++ acc.reverse) := by
  intro r
  induction r using List.reverseRecOn with
  | nil =>
    rintro v l ⟨r', hl, hlook, -, hlast, -⟩ hr acc fuel hfuel
    rw [hl] at hr
    cases hr
    subst hl
    simp only [lastD] at hlast
    subst hlast
    match fuel, hfuel with
    | fuel + 1, _ =>
      simp [reconstructPath, hlook]
  | append_singleton r₀ z ih =>
    rintro v l ⟨r', hl, hlook, hlink, hlast, hnd⟩ hr acc fuel hfuel
    rw [hl] at hr
    cases hr
    subst hl
    rw [lastD_append] at hlast
    simp only [lastD] at hlast
    subst hlast
    rw [linked_append] at hlink
    obtain ⟨hlink₀, hstep⟩ := hlink
    obtain ⟨⟨attr, hlookz, -, -⟩, -⟩ := hstep
    have hch₀ : PredChain G dist pred start (start :: r₀) (lastD start r₀) := by
      refine ⟨r₀, rfl, hlook, hlink₀, rfl, ?_⟩
      have := hnd
      rw [show start :: (r₀ ++ [z]) = (start :: r₀) ++ [z] from rfl] at this
      exact this.of_append_left
    match fuel, hfuel with
    | fuel + 1, hfuel =>
      simp only [reconstructPath, hlookz]
      rw [ih hch₀ rfl (acc ++ [z]) fuel (by simpa using Nat.lt_succ_iff.mp hfuel)]
      simp

theorem chain_length_le {G : PyGraph V} {dist : V → ℕ∞}
    {pred : List (V × Option V)} {start v : V} {l : List V}
    (h : PredChain G dist pred start l v) :
    l.length ≤ pred.length + 1 := by
  obtain ⟨r, rfl, hlook, hlink, -, hnd⟩ := h
  have hkeys : ∀ x ∈ start :: r, (alookup x pred).isSome := by
    intro x hx
    rcases List.mem_cons.mp hx with rfl | hx2
    · simp [hlook]
    · exact linked_keys hlink x hx2
  have hsub : (start :: r) ⊆ pred.map Prod.fst := by
    intro x hx
    have := hkeys x hx
    rw [Option.isSome_iff_exists] at this
    obtain ⟨b, hb⟩ := this
    exact List.mem_map.mpr ⟨(x, b), alookup_mem hb, rfl⟩
  have h2 := (hnd.subperm hsub).length_le
  simp only [List.length_cons, List.length_map] at h2
  simp only [List.length_cons]
  omega

/-- Rebuilding all predecessor chains after one relaxation update
`dist[w] := nval`, `pred[w] := u`: the chain for `w` extends the chain
of `u`; a chain passing through `w` is re-routed through the new chain
of `w`. -/
theorem chains_update {G : PyGraph V} {dist : V → ℕ∞} {pred : List (V × Option V)}
    {start u w : V} {attr : Option ℕ} {nval : ℕ}
    (hch : ∀ y, dist y < ⊤ → ∃ l, PredChain G dist pred start l y)
    (hstart0 : dist start = 0)
    (hufin : dist u < ⊤)
    (hedge : G.edgeAttr u w = some attr)
    (hnv : dist u + (pyWeight attr : ℕ∞) ≤ (nval : ℕ∞))
    (hlt : (nval : ℕ∞) < dist w) :
    ∀ y, (fun x => if x = w then (nval : ℕ∞) else dist x) y < ⊤ →
      ∃ l, PredChain G (fun x => if x = w then (nval : ℕ∞) else dist x)
        (aset w (some u) pred) start l y := by
  set dist' : V → ℕ∞ := fun x => if x = w then (nval : ℕ∞) else dist x with hdist'
  set pred' : List (V × Option V) := aset w (some u) pred with hpred'
  have hws : w ≠ start := by
    rintro rfl
    rw [hstart0] at hlt
    exact absurd hlt (by simp)
  have huw : u ≠ w := by
    rintro rfl
    exact absurd (lt_of_le_of_lt (le_trans le_self_add hnv) hlt) (lt_irrefl _)
  have hd_ne : ∀ z, z ≠ w → dist' z = dist z := by
    intro z hz
    simp only [hdist', if_neg hz]
  have hp_ne : ∀ z, z ≠ w → alookup z pred' = alookup z pred := by
    intro z hz
    exact alookup_aset_ne hz _ _
  have hd_w : dist' w = (nval : ℕ∞) := by simp [hdist']
  obtain ⟨lu, hlu⟩ := hch u hufin
  obtain ⟨ru, hlueq, hlooks, hlinku, hlastu, hndu⟩ := hlu
  subst hlueq
  have helem : ∀ z ∈ start :: ru, dist z ≤ dist u := by
    intro z hz
    rcases List.mem_cons.mp hz with rfl | hz2
    · rw [hstart0]; exact zero_le _
    · have := linked_elem_le_last hlinku z hz2
      rwa [hlastu] at this
  have hwnotin : w ∉ start :: ru := by
    intro hmem
    have h1 := helem w hmem
    exact absurd (lt_of_le_of_lt (le_trans h1 (le_trans le_self_add hnv)) hlt)
      (lt_irrefl _)
  have hsame_ru : ∀ z ∈ ru, alookup z pred' = alookup z pred ∧ dist' z = dist z := by
    intro z hz
    have hzw : z ≠ w := fun hh => hwnotin (hh ▸ List.mem_cons_of_mem _ hz)
    exact ⟨hp_ne z hzw, hd_ne z hzw⟩
  have hchainw : PredChain G dist' pred' start (start :: (ru ++ [w])) w := by
    refine ⟨ru ++ [w], rfl, ?_, ?_, ?_, ?_⟩
    · rw [hp_ne start (Ne.symm hws)]
      exact hlooks
    · rw [linked_append]
      refine ⟨linked_transfer hlinku hsame_ru
        (le_of_eq (hd_ne start (Ne.symm hws))), ?_⟩
      rw [hlastu]
      refine ⟨⟨attr, ?_, hedge, ?_⟩, trivial⟩
      · rw [hpred']
        exact alookup_aset_self w (some u) pred
      · rw [hd_ne u huw, hd_w]
        exact hnv
    · rw [lastD_append]; rfl
    · rw [show start :: (ru ++ [w]) = (start :: ru) ++ [w] from rfl]
      rw [List.nodup_append]
      exact ⟨hndu, List.nodup_singleton w, by
        intro z hz hzw
        rw [List.mem_singleton] at hzw
        exact hwnotin (hzw ▸ hz)⟩
  intro y hy
  by_cases hyw : y = w
  · exact hyw ▸ ⟨_, hchainw⟩
  · have hyf : dist y < ⊤ := by
      have := hy
      simp only [hdist', if_neg hyw] at this
      exact this
    obtain ⟨ly, hly⟩ := hch y hyf
    obtain ⟨ry, hlyeq, hlooksy, hlinky, hlasty, hndy⟩ := hly
    subst hlyeq
    by_cases hwin : w ∈ ry
    · obtain ⟨r₁, r₂, hr⟩ := List.append_of_mem hwin
      subst hr
      rw [linked_append] at hlinky
      obtain ⟨hlink₁, hlink₂⟩ := hlinky
      obtain ⟨-, hlinkr₂⟩ := hlink₂
      have hndy' : (start :: (r₁ ++ w :: r₂)).Nodup := hndy
      have hwr₂ : w ∉ r₂ := by
        have : (w :: r₂).Nodup := by
          have := hndy'.of_cons
          rw [List.nodup_append] at this
          exact this.2.1
        exact this.not_mem
      have hndr₂ : r₂.Nodup := by
        have : (w :: r₂).Nodup := by
          have := hndy'.of_cons
          rw [List.nodup_append] at this
          exact this.2.1
        exact this.of_cons
      refine ⟨start :: ((ru ++ [w]) ++ r₂), ru ++ [w] ++ r₂, rfl, ?_, ?_, ?_, ?_⟩
      · rw [hp_ne start (Ne.symm hws)]
        exact hlooks
      · rw [linked_append]
        obtain ⟨rr, hrr, -, hlw, -, -⟩ := hchainw
        injection hrr with h1 h2
        subst h2
        refine ⟨hlw, ?_⟩
        rw [lastD_append]
        simp only [lastD]
        refine linked_transfer hlinkr₂ ?_ (by rw [hd_w]; exact le_of_lt hlt)
        intro z hz
        have hzw : z ≠ w := fun hh => hwr₂ (hh ▸ hz)
        exact ⟨hp_ne z hzw, hd_ne z hzw⟩
      · rw [lastD_append, lastD_append]
        simp only [lastD]
        rw [lastD_append] at hlasty
        simpa [lastD] using hlasty
      · rw [show start :: (ru ++ [w] ++ r₂) = (start :: (ru ++ [w])) ++ r₂ by simp]
        rw [List.nodup_append]
        obtain ⟨rr, hrr, -, -, -, hndw⟩ := hchainw
        injection hrr with h1 h2
        subst h2
        refine ⟨hndw, hndr₂, ?_⟩
        intro z hz hz'
        have hge := linked_elem_ge hlinkr₂ z hz'
        rcases List.mem_cons.mp hz with rfl | hz2
        · have hle2 : dist z ≤ dist u := helem z (by simp)
          exact absurd (lt_of_le_of_lt
            (le_trans hge (le_trans hle2 (le_trans le_self_add hnv))) hlt)
            (lt_irrefl _)
        · rcases List.mem_append.mp hz2 with hz3 | hz3
          · have hle2 : dist z ≤ dist u := helem z (List.mem_cons_of_mem _ hz3)
            exact absurd (lt_of_le_of_lt
              (le_trans hge (le_trans hle2 (le_trans le_self_add hnv))) hlt)
              (lt_irrefl _)
          · rw [List.mem_singleton] at hz3
            exact hwr₂ (hz3 ▸ hz')
    · have hwnotin_y : w ∉ start :: ry := by
        intro hmem
        rcases List.mem_cons.mp hmem with rfl | hmem2
        · exact hws rfl
        · exact hwin hmem2
      refine ⟨start :: ry, ry, rfl, ?_, ?_, hlasty, hndy⟩
      · rw [hp_ne start (Ne.symm hws)]
        exact hlooksy
      · refine linked_transfer hlinky ?_ (le_of_eq (hd_ne start (Ne.symm hws)))
        intro z hz
        have hzw : z ≠ w := fun hh => hwnotin_y (hh ▸ List.mem_cons_of_mem _ hz)
        exact ⟨hp_ne z hzw, hd_ne z hzw⟩

end ChainLemmas

section DijkstraInvariant

variable {V : Type} [LinearOrder V]

open PyGraph

theorem alookup_eq_of_mem_nodup {β : Type} {l : List (V × β)} {k : V} {b : β}
    (hmem : (k, b) ∈ l) (hnd : (l.map Prod.fst).Nodup) :
    alookup k l = some b := by
  induction l with
  | nil => cases hmem
  | cons p l ih =>
    obtain ⟨a, v⟩ := p
    simp only [List.map_cons, List.nodup_cons] at hnd
    rcases List.mem_cons.mp hmem with heq | hmem2
    · cases heq
      simp [alookup]
    · have hak : a ≠ k := by
        rintro rfl
        exact hnd.1 (List.mem_map.mpr ⟨(a, b), hmem2, rfl⟩)
      simp only [alookup, if_neg hak]
      exact ih hmem2 hnd.2

/-- Any head of the queue has an optimal recorded distance: the central
fact behind Dijkstra's algorithm for this implementation. -/
theorem pop_optimal {G : PyGraph V} {start endv : V} {dist : V → ℕ∞}
    {pred : List (V × Option V)} {queue : List (ℕ × V)}
    (hclosed : G.Closed) (hstart : start ∈ G.nodes)
    (inv : DInv G start endv dist pred queue)
    {d : ℕ} {u : V} {rest : List (ℕ × V)} (hq : queue = (d, u) :: rest) :
    dist u = delta G start u := by
  have hdu : dist u ≤ (d : ℕ∞) := inv.qge (d, u) (by rw [hq]; simp)
  have hfin : dist u < ⊤ := lt_of_le_of_lt hdu (WithTop.coe_lt_top d)
  have hle : delta G start u ≤ dist u := chains_delta_le inv.chains inv.start0 u
  by_contra hne
  have hlt : delta G start u < dist u := lt_of_le_of_ne hle (fun h => hne h.symm)
  have hreach : Reachable G start u := by
    by_contra hr
    rw [← deltaGen_eq_top (f := stepW G)] at hr
    rw [delta] at hlt
    rw [hr] at hlt
    exact absurd (lt_of_lt_of_le hlt le_top) (lt_irrefl _)
  obtain ⟨l, hwalk, hcost⟩ := deltaGen_attained (f := stepW G) hreach
  obtain ⟨r, rfl⟩ := hwalk.head
  obtain ⟨-, hsteps, hlast⟩ := hwalk
  have hSstart : dist start = delta G start start := by
    rw [inv.start0, delta, deltaGen_self]
  have hSu : ¬ dist u = delta G start u := hne
  obtain ⟨r₁, y, r₂, hr, hx, hy, hxy⟩ :=
    steps_cross (S := fun v => dist v = delta G start v) hsteps hSstart
      (hlast ▸ hSu)
  subst hr
  set x := lastD start r₁ with hxdef
  have hsteps₁ : Steps G start r₁ := ((steps_append start r₁ (y :: r₂)).mp hsteps).1
  have hwalk₁ : IsWalk G start x (start :: r₁) := isWalk_cons.mpr ⟨hsteps₁, rfl⟩
  have hxnode : x ∈ G.nodes := lastD_mem_nodes hclosed hstart hsteps₁
  have hδx_le : delta G start x ≤ (costFrom (stepW G) start r₁ : ℕ∞) :=
    deltaGen_le hwalk₁
  have hcost_split : costFrom (stepW G) start (r₁ ++ y :: r₂)
      = costFrom (stepW G) start r₁ + costFrom (stepW G) x (y :: r₂) :=
    costFrom_append _ _ _ _
  have hδx_le_δu : delta G start x ≤ delta G start u := by
    simp only [delta]
    rw [← hcost]
    refine le_trans hδx_le ?_
    rw [show walkCost (stepW G) (start :: (r₁ ++ y :: r₂))
        = costFrom (stepW G) start (r₁ ++ y :: r₂) from rfl, hcost_split]
    exact_mod_cast Nat.le_add_right _ _
  have hδy : (walkCost (stepW G) (start :: (r₁ ++ [y])) : ℕ∞) = delta G start y :=
    shortest_walk_pre (f := stepW G)
      (isWalk_cons.mpr ⟨hsteps, hlast⟩) hcost
  have hδy' : ((costFrom (stepW G) start r₁ + stepW G x y : ℕ) : ℕ∞)
      = delta G start y := by
    rw [← hδy]
    norm_cast
    rw [show walkCost (stepW G) (start :: (r₁ ++ [y]))
        = costFrom (stepW G) start (r₁ ++ [y]) from rfl,
      costFrom_append]
    simp [costFrom]
  have hxfin : dist x < ⊤ := by
    rw [hx]
    exact lt_of_le_of_lt hδx_le (WithTop.coe_lt_top _)
  rcases inv.fresh x hxnode hxfin with ⟨dx, hdx, hdxmem⟩ | ⟨-, hcov⟩
  · -- an entry at the optimal value of x is queued: it beats the head
    rw [hq] at hdxmem
    rcases List.mem_cons.mp hdxmem with heq | hmem2
    · injection heq with h1 h2
      exact hSu (h2 ▸ hx)
    · have hle2 : entryLE (d, u) (dx, x) := by
        rw [hq] at inv
        exact List.rel_of_sorted_cons inv.sorted _ hmem2
      have hdle : d ≤ dx := by
        rcases hle2 with h | ⟨h, -⟩
        · exact le_of_lt h
        · exact le_of_eq h
      have : (d : ℕ∞) ≤ (dx : ℕ∞) := by exact_mod_cast hdle
      rw [hdx, hx] at this
      have hcontra : (d : ℕ∞) < (d : ℕ∞) :=
        lt_of_le_of_lt (le_trans this hδx_le_δu) (lt_of_lt_of_le hlt hdu)
      exact absurd hcontra (lt_irrefl _)
  · -- x has been fully relaxed: y would already be settled
    rw [Option.isSome_iff_exists] at hxy
    obtain ⟨attr, hattr⟩ := hxy
    have hymem : (y, attr) ∈ G.adj x := alookup_mem hattr
    have hdy := hcov (y, attr) hymem
    have hsw : stepW G x y = pyWeight attr := by
      unfold PyGraph.stepW
      rw [show G.edgeAttr x y = some attr from hattr]
      rfl
    have hdy2 : dist y ≤ delta G start y := by
      rw [← hδy']
      calc dist y ≤ dist x + (pyWeight attr : ℕ∞) := hdy
        _ = delta G start x + (pyWeight attr : ℕ∞) := by rw [hx]
        _ ≤ (costFrom (stepW G) start r₁ : ℕ∞) + (pyWeight attr : ℕ∞) :=
            add_le_add_right hδx_le _
        _ = _ := by rw [hsw]; push_cast; ring
    have hdy3 : delta G start y ≤ dist y := chains_delta_le inv.chains inv.start0 y
    exact hy (le_antisymm hdy2 hdy3)

end DijkstraInvariant

section RelaxPreserve

variable {V : Type} [LinearOrder V]

open PyGraph

/-- Postcondition of the relaxation sweep from a popped entry `(d, u)`. -/
structure RelaxPost (G : PyGraph V) (start : V) (d : ℕ) (u : V)
    (items : List (V × Option ℕ)) (dist : V → ℕ∞) (queue : List (ℕ × V))
    (dist' : V → ℕ∞) (pred' : List (V × Option V)) (queue' : List (ℕ × V)) :
    Prop where
  sorted : queue'.Sorted entryLE
  qmem : ∀ e ∈ queue', e.2 ∈ G.nodes
  qge : ∀ e ∈ queue', dist' e.2 ≤ (e.1 : ℕ∞)
  start0 : dist' start = 0
  fin_nodes : ∀ v, dist' v < ⊤ → v ∈ G.nodes
  chains : ∀ v, dist' v < ⊤ → ∃ l, PredChain G dist' pred' start l v
  mono : ∀ v, dist' v ≤ dist v
  atU : dist' u = dist u
  cover : ∀ p ∈ items, dist' p.1 ≤ ((d + pyWeight p.2 : ℕ) : ℕ∞)
  freshNew : ∀ v, dist' v < dist v →
    ∃ dd : ℕ, (dd : ℕ∞) = dist' v ∧ (dd, v) ∈ queue'
  keep : ∀ e ∈ queue, e ∈ queue'

theorem relaxNbrs_preserve {G : PyGraph V} {start : V}
    (hclosed : G.Closed) {d : ℕ} {u : V} (hu : u ∈ G.nodes)
    (hnodup : ((G.adj u).map Prod.fst).Nodup) :
    ∀ {items : List (V × Option ℕ)} {dist : V → ℕ∞}
      {pred : List (V × Option V)} {queue : List (ℕ × V)}
      {dist' : V → ℕ∞} {pred' : List (V × Option V)} {queue' : List (ℕ × V)},
    relaxNbrs G.nodes d u items dist pred queue = .ok (dist', pred', queue') →
    (∀ p ∈ items, p ∈ G.adj u) →
    queue.Sorted entryLE →
    (∀ e ∈ queue, e.2 ∈ G.nodes) →
    (∀ e ∈ queue, dist e.2 ≤ (e.1 : ℕ∞)) →
    dist start = 0 →
    (∀ v, dist v < ⊤ → v ∈ G.nodes) →
    (∀ v, dist v < ⊤ → ∃ l, PredChain G dist pred start l v) →
    dist u < ⊤ →
    dist u ≤ (d : ℕ∞) →
    RelaxPost G start d u items dist queue dist' pred' queue' := by
  intro items
  induction items with
  | nil =>
    intro dist pred queue dist' pred' queue' hrel hitems hsorted hqmem hqge
      hstart0 hfin hch hufin hdu
    simp only [relaxNbrs, Except.ok.injEq] at hrel
    obtain ⟨rfl, rfl, rfl⟩ := hrel
    exact ⟨hsorted, hqmem, hqge, hstart0, hfin, hch, fun v => le_refl _, rfl,
      fun p hp => absurd hp (List.not_mem_nil p),
      fun v hv => absurd hv (lt_irrefl _), fun e he => he⟩
  | cons p items ih =>
    intro dist pred queue dist' pred' queue' hrel hitems hsorted hqmem hqge
      hstart0 hfin hch hufin hdu
    obtain ⟨w, attr⟩ := p
    have hwadj : (w, attr) ∈ G.adj u := hitems (w, attr) (by simp)
    have hw : w ∈ G.nodes := hclosed u hu _ hwadj
    simp only [relaxNbrs, if_pos hw] at hrel
    by_cases hupd : ((d + pyWeight attr : ℕ) : ℕ∞) < dist w
    · rw [if_pos hupd] at hrel
      have hedge : G.edgeAttr u w = some attr :=
        alookup_eq_of_mem_nodup hwadj hnodup
      have hnv : dist u + (pyWeight attr : ℕ∞) ≤ ((d + pyWeight attr : ℕ) : ℕ∞) := by
        push_cast
        exact add_le_add_right hdu _
      have huw : u ≠ w := by
        rintro rfl
        exact absurd (lt_of_le_of_lt (le_trans le_self_add hnv) hupd) (lt_irrefl _)
      have hws : w ≠ start := by
        rintro rfl
        rw [hstart0] at hupd
        exact absurd hupd (by simp)
      set dist₁ : V → ℕ∞ :=
        fun x => if x = w then ((d + pyWeight attr : ℕ) : ℕ∞) else dist x
        with hdist₁
      have hmono₁ : ∀ v, dist₁ v ≤ dist v := by
        intro v
        by_cases hv : v = w
        · subst hv
          simp only [hdist₁, if_pos rfl]
          exact le_of_lt hupd
        · simp [hdist₁, hv]
      have hd₁w : dist₁ w = ((d + pyWeight attr : ℕ) : ℕ∞) := by
        simp [hdist₁]
      have hd₁u : dist₁ u = dist u := by simp [hdist₁, huw]
      have post := ih hrel
        (fun q hq => hitems q (List.mem_cons_of_mem _ hq))
        (List.Sorted.orderedInsert _ _ hsorted)
        (by
          intro e he
          rcases (List.mem_orderedInsert entryLE).mp he with rfl | he2
          · exact hw
          · exact hqmem e he2)
        (by
          intro e he
          rcases (List.mem_orderedInsert entryLE).mp he with rfl | he2
          · exact le_of_eq hd₁w
          · exact le_trans (hmono₁ e.2) (hqge e he2))
        (by rw [show dist₁ start = dist start by simp [hdist₁, Ne.symm hws]]
            exact hstart0)
        (by
          intro v hv
          by_cases hvw : v = w
          · exact hvw ▸ hw
          · exact hfin v (by rwa [show dist₁ v = dist v by simp [hdist₁, hvw]] at hv))
        (chains_update hch hstart0 hufin hedge hnv hupd)
        (by rwa [hd₁u])
        (by rwa [hd₁u])
      refine ⟨post.sorted, post.qmem, post.qge, post.start0, post.fin_nodes,
        post.chains, ?_, ?_, ?_, ?_, ?_⟩
      · exact fun v => le_trans (post.mono v) (hmono₁ v)
      · rw [post.atU, hd₁u]
      · intro q hq
        rcases List.mem_cons.mp hq with rfl | hq2
        · exact le_trans (post.mono w) (le_of_eq hd₁w)
        · exact post.cover q hq2
      · intro v hv
        by_cases hlt₁ : dist' v < dist₁ v
        · exact post.freshNew v hlt₁
        · have heq : dist' v = dist₁ v := le_antisymm (post.mono v) (not_lt.mp hlt₁)
          have hvw : v = w := by
            by_contra hvw
            rw [heq, show dist₁ v = dist v by simp [hdist₁, hvw]] at hv
            exact absurd hv (lt_irrefl _)
          subst hvw
          refine ⟨d + pyWeight attr, by rw [heq, hd₁w], ?_⟩
          exact post.keep _ ((List.mem_orderedInsert entryLE).mpr (Or.inl rfl))
      · intro e he
        exact post.keep e ((List.mem_orderedInsert entryLE).mpr (Or.inr he))
    · rw [if_neg hupd] at hrel
      have post := ih hrel
        (fun q hq => hitems q (List.mem_cons_of_mem _ hq))
        hsorted hqmem hqge hstart0 hfin hch hufin hdu
      refine ⟨post.sorted, post.qmem, post.qge, post.start0, post.fin_nodes,
        post.chains, post.mono, post.atU, ?_, post.freshNew, post.keep⟩
      intro q hq
      rcases List.mem_cons.mp hq with rfl | hq2
      · exact le_trans (post.mono w) (not_lt.mp hupd)
      · exact post.cover q hq2

end RelaxPreserve

section StepOk

variable {V : Type} [LinearOrder V]

open PyGraph

theorem relaxNbrs_ok {G : PyGraph V} {d : ℕ} {u : V} :
    ∀ {items : List (V × Option ℕ)} {dist : V → ℕ∞}
      {pred : List (V × Option V)} {queue : List (ℕ × V)},
    (∀ p ∈ items, p.1 ∈ G.nodes) →
    ∃ out, relaxNbrs G.nodes d u items dist pred queue = .ok out := by
  intro items
  induction items with
  | nil => exact fun _ => ⟨_, rfl⟩
  | cons p items ih =>
    intro dist pred queue hitems
    obtain ⟨w, attr⟩ := p
    have hw : w ∈ G.nodes := hitems (w, attr) (by simp)
    simp only [relaxNbrs, if_pos hw]
    by_cases hupd : ((d + pyWeight attr : ℕ) : ℕ∞) < dist w
    · rw [if_pos hupd]
      exact ih (fun q hq => hitems q (List.mem_cons_of_mem _ hq))
    · rw [if_neg hupd]
      exact ih (fun q hq => hitems q (List.mem_cons_of_mem _ hq))

/-- Analysis of one loop iteration under the invariant: it either
continues with the invariant re-established, or returns the correct
result. -/
theorem dijkstraStep_ok {G : PyGraph V} {start endv : V}
    {dist : V → ℕ∞} {pred : List (V × Option V)} {queue : List (ℕ × V)}
    (hclosed : G.Closed) (hnodup : G.AdjNodup) (hstart : start ∈ G.nodes)
    (inv : DInv G start endv dist pred queue) :
    (∃ st', dijkstraStep G endv G.nodes ⟨dist, pred, queue⟩ = .ok (.inl st') ∧
      DInv G start endv st'.dist st'.pred st'.queue) ∨
    (∃ res, dijkstraStep G endv G.nodes ⟨dist, pred, queue⟩ = .ok (.inr res) ∧
      res.2 = delta G start endv ∧
      (res.1 = none ↔ delta G start endv = ⊤) ∧
      ∀ l, res.1 = some l → IsWalk G start endv l ∧
        (walkCost (stepW G) l : ℕ∞) = delta G start endv) := by
  rcases hqe : queue with - | ⟨⟨d, u⟩, rest⟩
  · subst hqe
    right
    refine ⟨(none, ⊤), rfl, ?_, ?_, ?_⟩
    · -- the queue is exhausted: `end` is unreachable
      have hdtop : dist endv = ⊤ := by
        rcases inv.endq with ⟨dd, -, hmem⟩ | h
        · cases hmem
        · exact h
      have hδtop : delta G start endv = ⊤ := by
        rw [delta_eq_top]
        rintro ⟨l, hwalk⟩
        obtain ⟨r, rfl⟩ := hwalk.head
        obtain ⟨-, hsteps, hlast⟩ := hwalk
        have hfin_walk : ∀ (r' : List V) (x : V), x ∈ G.nodes → dist x < ⊤ →
            Steps G x r' → dist (lastD x r') < ⊤ := by
          intro r'
          induction r' with
          | nil => intro x _ hx _; exact hx
          | cons z r'' ih =>
            intro x hxmem hxfin hst
            obtain ⟨hedge, hsteps'⟩ := hst
            rcases inv.fresh x hxmem hxfin with ⟨dd, -, hmem⟩ | ⟨-, hcov⟩
            · cases hmem
            · rw [Option.isSome_iff_exists] at hedge
              obtain ⟨attr, hattr⟩ := hedge
              have hzadj : (z, attr) ∈ G.adj x := alookup_mem hattr
              have hz : dist z < ⊤ := by
                refine lt_of_le_of_lt (hcov (z, attr) hzadj) ?_
                exact WithTop.add_lt_top.mpr ⟨hxfin, WithTop.coe_lt_top _⟩
              exact ih z (hclosed x hxmem _ hzadj) hz hsteps'
        have := hfin_walk r start hstart (by rw [inv.start0]; simp) hsteps
        rw [hlast, hdtop] at this
        exact absurd this (lt_irrefl _)
      rw [hδtop]
    · simp
      rw [delta_eq_top]
      rintro ⟨l, hwalk⟩
      obtain ⟨r, rfl⟩ := hwalk.head
      obtain ⟨-, hsteps, hlast⟩ := hwalk
      have hdtop : dist endv = ⊤ := by
        rcases inv.endq with ⟨dd, -, hmem⟩ | h
        · cases hmem
        · exact h
      have hfin_walk : ∀ (r' : List V) (x : V), x ∈ G.nodes → dist x < ⊤ →
          Steps G x r' → dist (lastD x r') < ⊤ := by
        intro r'
        induction r' with
        | nil => intro x _ hx _; exact hx
        | cons z r'' ih =>
          intro x hxmem hxfin hst
          obtain ⟨hedge, hsteps'⟩ := hst
          rcases inv.fresh x hxmem hxfin with ⟨dd, -, hmem⟩ | ⟨-, hcov⟩
          · cases hmem
          · rw [Option.isSome_iff_exists] at hedge
            obtain ⟨attr, hattr⟩ := hedge
            have hzadj : (z, attr) ∈ G.adj x := alookup_mem hattr
            have hz : dist z < ⊤ := by
              refine lt_of_le_of_lt (hcov (z, attr) hzadj) ?_
              exact WithTop.add_lt_top.mpr ⟨hxfin, WithTop.coe_lt_top _⟩
            exact ih z (hclosed x hxmem _ hzadj) hz hsteps'
      have := hfin_walk r start hstart (by rw [inv.start0]; simp) hsteps
      rw [hlast, hdtop] at this
      exact absurd this (lt_irrefl _)
    · intro l hl
      cases hl
  · subst hqe
    have hdufin : dist u ≤ (d : ℕ∞) := inv.qge (d, u) (by simp)
    have hufin : dist u < ⊤ := lt_of_le_of_lt hdufin (WithTop.coe_lt_top d)
    have hu : u ∈ G.nodes := inv.qmem (d, u) (by simp)
    have hopt : dist u = delta G start u := pop_optimal hclosed hstart inv rfl
    by_cases hu_end : u = endv
    · subst hu_end
      obtain ⟨l, hchain⟩ := inv.chains u hufin
      obtain ⟨r, hleq, h1, h2, h3, h4⟩ := hchain
      have hchain' : PredChain G dist pred start l u := ⟨r, hleq, h1, h2, h3, h4⟩
      have hrec : reconstructPath pred (pred.length + 1) u [] = .ok l := by
        have := chain_reconstruct hchain' hleq [] (pred.length + 1)
          (chain_length_le hchain')
        simpa using this
      right
      refine ⟨(some l, dist u), ?_, hopt, ?_, ?_⟩
      · simp [dijkstraStep, hrec]
      · constructor
        · intro h; cases h
        · intro h
          rw [← hopt] at h
          rw [h] at hufin
          exact absurd hufin (lt_irrefl _)
      · intro l' hl'
        cases hl'
        obtain ⟨hwalk, hcost⟩ := chain_walk hchain' inv.start0
        refine ⟨hwalk, le_antisymm ?_ (deltaGen_le hwalk)⟩
        rw [← hopt]
        exact hcost
    · -- continue: relax all neighbors of u
      obtain ⟨⟨dist', pred', queue'⟩, hrel⟩ :=
        @relaxNbrs_ok _ _ G d u (G.adj u) dist pred rest
          (fun p hp => hclosed u hu p hp)
      have hrest_sorted : rest.Sorted entryLE := inv.sorted.of_cons
      have post := relaxNbrs_preserve hclosed hu (hnodup u hu) hrel
        (fun p hp => hp) hrest_sorted
        (fun e he => inv.qmem e (List.mem_cons_of_mem _ he))
        (fun e he => inv.qge e (List.mem_cons_of_mem _ he))
        inv.start0 inv.fin_nodes inv.chains hufin hdufin
      left
      refine ⟨⟨dist', pred', queue'⟩, ?_, ?_⟩
      · simp only [dijkstraStep, if_neg hu_end,
          getAdj_eq_some.mpr ⟨hu, rfl⟩, hrel]
      · dsimp only
        refine ⟨post.sorted, post.qmem, post.qge, post.start0, post.fin_nodes,
          ?_, ?_, post.chains⟩
        · -- fresh
          intro v hv hvfin
          by_cases hlt : dist' v < dist v
          · exact Or.inl (post.freshNew v hlt)
          · have heq : dist' v = dist v := le_antisymm (post.mono v) (not_lt.mp hlt)
            by_cases hvu : v = u
            · subst hvu
              right
              refine ⟨by rw [heq, hopt], ?_⟩
              by_cases hdfresh : (d : ℕ∞) = dist v
              · intro p hp
                have := post.cover p hp
                rw [heq, ← hdfresh]
                refine le_trans this ?_
                push_cast
                exact le_refl _
              · -- stale pop: the pre-state already satisfied full relaxation
                have hstale : dist v < (d : ℕ∞) :=
                  lt_of_le_of_ne hdufin (fun h => hdfresh h.symm)
                rcases inv.fresh v hu (lt_of_le_of_lt hdufin (WithTop.coe_lt_top d))
                  with ⟨dv, hdv, hmem⟩ | ⟨-, hcov⟩
                · rcases List.mem_cons.mp hmem with heq2 | hmem2
                  · injection heq2 with ha hb
                    rw [ha] at hdv
                    exact absurd hdv hdfresh
                  · have hle2 := List.rel_of_sorted_cons inv.sorted _ hmem2
                    have hdle : d ≤ dv := by
                      rcases hle2 with h | ⟨h, -⟩
                      · exact le_of_lt h
                      · exact le_of_eq h
                    have : (d : ℕ∞) ≤ (dv : ℕ∞) := by exact_mod_cast hdle
                    rw [hdv] at this
                    exact absurd (lt_of_le_of_lt this hstale) (lt_irrefl _)
                · intro p hp
                  rw [heq]
                  exact le_trans (post.mono p.1) (hcov p hp)
            · rcases inv.fresh v hv (heq ▸ hvfin) with ⟨dv, hdv, hmem⟩ | ⟨hδv, hcov⟩
              · rcases List.mem_cons.mp hmem with heq2 | hmem2
                · injection heq2 with ha hb
                  exact absurd hb hvu
                · exact Or.inl ⟨dv, by rw [hdv, heq], post.keep _ hmem2⟩
              · right
                refine ⟨by rw [heq, hδv], ?_⟩
                intro p hp
                rw [heq]
                exact le_trans (post.mono p.1) (hcov p hp)
        · -- endq
          by_cases hlt : dist' endv < dist endv
          · exact Or.inl (post.freshNew endv hlt)
          · have heq : dist' endv = dist endv :=
              le_antisymm (post.mono endv) (not_lt.mp hlt)
            rcases inv.endq with ⟨de, hde, hmem⟩ | htop
            · rcases List.mem_cons.mp hmem with heq2 | hmem2
              · injection heq2 with ha hb
                exact absurd hb.symm hu_end
              · exact Or.inl ⟨de, by rw [hde, heq], post.keep _ hmem2⟩
            · exact Or.inr (by rw [heq, htop])

end StepOk

section LoopCorrect

variable {V : Type} [LinearOrder V]

open PyGraph

theorem dijkstraLoop_eq_error {G : PyGraph V} {endv : V} {keys : List V}
    {st : DState V} {e : PyErr}
    (h : dijkstraStep G endv keys st = .error e) :
    dijkstraLoop G endv keys st = .error e := by
  unfold dijkstraLoop
  split
  next e' heq => rw [h] at heq; cases heq; rfl
  next r heq => rw [h] at heq; cases heq
  next st' heq => rw [h] at heq; cases heq

theorem dijkstraLoop_eq_inr {G : PyGraph V} {endv : V} {keys : List V}
    {st : DState V} {r : Option (List V) × ℕ∞}
    (h : dijkstraStep G endv keys st = .ok (.inr r)) :
    dijkstraLoop G endv keys st = .ok r := by
  unfold dijkstraLoop
  split
  next e' heq => rw [h] at heq; cases heq
  next r' heq =>
    rw [h] at heq
    injection heq with heq2
    injection heq2 with heq3
    rw [heq3]
  next st' heq =>
    rw [h] at heq
    injection heq with heq2
    cases heq2

theorem dijkstraLoop_eq_inl {G : PyGraph V} {endv : V} {keys : List V}
    {st st' : DState V}
    (h : dijkstraStep G endv keys st = .ok (.inl st')) :
    dijkstraLoop G endv keys st = dijkstraLoop G endv keys st' := by
  conv_lhs => unfold dijkstraLoop
  split
  next e' heq => rw [h] at heq; cases heq
  next r' heq =>
    rw [h] at heq
    injection heq with heq2
    cases heq2
  next st'' heq =>
    rw [h] at heq
    injection heq with heq2
    injection heq2 with heq3
    rw [heq3]

/-- Correctness of the main loop under the invariant. -/
theorem dijkstraLoop_correct {G : PyGraph V} {start endv : V}
    (hclosed : G.Closed) (hnodup : G.AdjNodup) (hstart : start ∈ G.nodes) :
    ∀ st : DState V, DInv G start endv st.dist st.pred st.queue →
    ∃ res, dijkstraLoop G endv G.nodes st = .ok res ∧
      res.2 = delta G start endv ∧
      (res.1 = none ↔ delta G start endv = ⊤) ∧
      ∀ l, res.1 = some l → IsWalk G start endv l ∧
        (walkCost (stepW G) l : ℕ∞) = delta G start endv := by
  intro st
  induction st using dijkstraLoop.induct G endv G.nodes with
  | case1 x e hstep =>
    intro inv
    obtain ⟨dist0, pred0, queue0⟩ := x
    rcases dijkstraStep_ok hclosed hnodup hstart inv with ⟨st', heq, -⟩ |
      ⟨res, heq, -⟩
    · rw [hstep] at heq; cases heq
    · rw [hstep] at heq; cases heq
  | case2 x r hstep =>
    intro inv
    obtain ⟨dist0, pred0, queue0⟩ := x
    rcases dijkstraStep_ok hclosed hnodup hstart inv with ⟨st', heq, -⟩ |
      ⟨res, heq, hc1, hc2, hc3⟩
    · rw [hstep] at heq
      injection heq with heq2
      cases heq2
    · rw [hstep] at heq
      injection heq with heq2
      injection heq2 with heq3
      subst heq3
      exact ⟨r, dijkstraLoop_eq_inr hstep, hc1, hc2, hc3⟩
  | case3 x st' hstep ih =>
    intro inv
    obtain ⟨dist0, pred0, queue0⟩ := x
    rcases dijkstraStep_ok hclosed hnodup hstart inv with ⟨st'', heq, hinv'⟩ |
      ⟨res, heq, -⟩
    · rw [hstep] at heq
      injection heq with heq2
      injection heq2 with heq3
      subst heq3
      rw [dijkstraLoop_eq_inl hstep]
      exact ih hinv'
    · rw [hstep] at heq
      injection heq with heq2
      cases heq2

theorem alookup_map_none {l : List V} {k : V} (hk : k ∈ l) :
    alookup k (l.map fun v => (v, (none : Option V))) = some none := by
  induction l with
  | nil => cases hk
  | cons a l ih =>
    by_cases hak : a = k
    · simp [alookup, hak]
    · rcases List.mem_cons.mp hk with rfl | hk2
      · simp at hak
      · simpa [alookup, hak] using ih hk2

/-- The initial state of `dijkstra_shortest_path` satisfies the
invariant. -/
theorem dijkstra_init_inv {G : PyGraph V} {start endv : V}
    (hstart : start ∈ G.nodes) :
    DInv G start endv (fun v => if v = start then 0 else ⊤)
      (G.nodes.map fun v => (v, none)) [(0, start)] := by
  refine ⟨?_, ?_, ?_, ?_, ?_, ?_, ?_, ?_⟩
  · simp [List.Sorted]
  · intro e he
    rw [List.mem_singleton] at he
    subst he
    exact hstart
  · intro e he
    rw [List.mem_singleton] at he
    subst he
    simp
  · simp
  · intro v hv
    by_cases hvs : v = start
    · exact hvs ▸ hstart
    · rw [if_neg hvs] at hv
      exact absurd hv (lt_irrefl _)
  · intro v hv hvfin
    by_cases hvs : v = start
    · subst hvs
      exact Or.inl ⟨0, by simp, by simp⟩
    · rw [if_neg hvs] at hvfin
      exact absurd hvfin (lt_irrefl _)
  · by_cases hvs : endv = start
    · exact Or.inl ⟨0, by rw [if_pos hvs]; simp, by simp [hvs]⟩
    · exact Or.inr (by rw [if_neg hvs])
  · intro v hv
    by_cases hvs : v = start
    · subst hvs
      refine ⟨[v], [], rfl, alookup_map_none hstart, trivial, rfl, ?_⟩
      exact List.nodup_singleton v
    · rw [if_neg hvs] at hv
      exact absurd hv (lt_irrefl _)

end LoopCorrect

section DijkstraSpec

variable {V : Type} [LinearOrder V]

open PyGraph

/-- Full behaviour of `dijkstra_shortest_path` from a start node. -/
theorem dijkstra_spec {G : PyGraph V} {start endv : V}
    (hclosed : G.Closed) (hnodup : G.AdjNodup) (hstart : start ∈ G.nodes) :
    ∃ res, dijkstra_shortest_path G start endv = .ok res ∧
      res.2 = delta G start endv ∧
      (res.1 = none ↔ delta G start endv = ⊤) ∧
      ∀ l, res.1 = some l → IsWalk G start endv l ∧
        (walkCost (stepW G) l : ℕ∞) = delta G start endv := by
  have hkeys : dijkstraDistKeys G start = G.nodes := by
    unfold dijkstraDistKeys
    rw [if_pos hstart]
  unfold dijkstra_shortest_path
  rw [hkeys]
  exact dijkstraLoop_correct hclosed hnodup hstart _ (dijkstra_init_inv hstart)

/-- No walk leads from a node to a non-node. -/
theorem not_reachable_of_not_node {G : PyGraph V} {start endv : V}
    (hclosed : G.Closed) (hstart : start ∈ G.nodes) (hendv : endv ∉ G.nodes) :
    ¬Reachable G start endv := by
  rintro ⟨l, hwalk⟩
  obtain ⟨r, rfl⟩ := hwalk.head
  obtain ⟨-, hsteps, hlast⟩ := hwalk
  exact hendv (hlast ▸ lastD_mem_nodes hclosed hstart hsteps)

theorem costFrom_one (a : V) (r : List V) :
    costFrom (fun _ _ => 1) a r = r.length := by
  induction r generalizing a with
  | nil => rfl
  | cons z r ih => simp [costFrom, ih, Nat.add_comm]

/-- On a walk from a node of a graph with no `weight` attributes, the
Python cost function charges `1` per edge. -/
theorem walk_unweighted_cost {G : PyGraph V} {start : V}
    (hclosed : G.Closed) (hstart : start ∈ G.nodes)
    (hunw : ∀ u ∈ G.nodes, ∀ p ∈ G.adj u, p.2 = none)
    {v : V} {l : List V} (h : IsWalk G start v l) :
    walkCost (stepW G) l = l.length - 1 := by
  obtain ⟨r, rfl⟩ := h.head
  obtain ⟨-, hsteps, -⟩ := h
  simp only [walkCost, List.length_cons, Nat.add_sub_cancel]
  have : ∀ (r' : List V) (x : V), x ∈ G.nodes → Steps G x r' →
      costFrom (stepW G) x r' = r'.length := by
    intro r'
    induction r' with
    | nil => intro x _ _; rfl
    | cons z r'' ih =>
      intro x hx hst
      obtain ⟨hedge, hst'⟩ := hst
      rw [Option.isSome_iff_exists] at hedge
      obtain ⟨attr, hattr⟩ := hedge
      have hmem : (z, attr) ∈ G.adj x := alookup_mem hattr
      have hattr_none : attr = none := hunw x hx _ hmem
      have hsw : stepW G x z = 1 := by
        unfold PyGraph.stepW
        rw [hattr, hattr_none]
        rfl
      simp only [costFrom, hsw, List.length_cons,
        ih z (hclosed x hx _ hmem) hst']
      omega
  exact this r start hstart hsteps

/-- On an unweighted graph the weighted and unweighted minima agree. -/
theorem delta_eq_edelta {G : PyGraph V} {start : V}
    (hclosed : G.Closed) (hstart : start ∈ G.nodes)
    (hunw : ∀ u ∈ G.nodes, ∀ p ∈ G.adj u, p.2 = none) (t : V) :
    delta G start t = edelta G start t := by
  unfold delta edelta deltaGen
  congr 1
  ext x
  constructor
  · rintro ⟨l, hw, rfl⟩
    refine ⟨l, hw, ?_⟩
    rw [walk_unweighted_cost hclosed hstart hunw hw]
    obtain ⟨r, rfl⟩ := hw.head
    simp [walkCost, costFrom_one]
  · rintro ⟨l, hw, rfl⟩
    refine ⟨l, hw, ?_⟩
    rw [walk_unweighted_cost hclosed hstart hunw hw]
    obtain ⟨r, rfl⟩ := hw.head
    simp [walkCost, costFrom_one]

end DijkstraSpec

section ExampleGraphs

/-- Small weighted triangle: `1—2` weight 3, `1—3` weight 1, `3—2`
weight 1 (the shortest route from `1` to `2` goes through `3`). -/
def exG1 : PyGraph ℕ where
  nodes := [1, 2, 3]
  adj := fun u =>
    if u = 1 then [(2, some 3), (3, some 1)]
    else if u = 2 then [(1, some 3), (3, some 1)]
    else if u = 3 then [(1, some 1), (2, some 1)]
    else []

/-- Unweighted path `1—2—3` plus the isolated node `4`. -/
def exG2 : PyGraph ℕ where
  nodes := [1, 2, 3, 4]
  adj := fun u =>
    if u = 1 then [(2, none)]
    else if u = 2 then [(1, none), (3, none)]
    else if u = 3 then [(2, none)]
    else []

end ExampleGraphs

section ClaimC1

variable {V : Type} [LinearOrder V]

open PyGraph

/-- C1: For every graph with non-negative edge weights (weights in this
repository are natural numbers of seconds, or the default 1) and every
pair of nodes `start`, `endv` of the graph, `dijkstra_shortest_path`
returns without exception a cost equal to `delta`, the minimum total
weight over all walks from `start` to `endv`: the cost is a lower bound
of every walk's cost and is attained by the returned path, and for an
unreachable pair the function returns the no-path sentinel `None`
together with an infinite cost. -/
theorem C1_dijkstra_correct (G : PyGraph V) (start endv : V)
    (hclosed : G.Closed) (hnodup : G.AdjNodup)
    (hstart : start ∈ G.nodes) (hendv : endv ∈ G.nodes) :
    ∃ path cost, dijkstra_shortest_path G start endv = .ok (path, cost) ∧
      cost = delta G start endv ∧
      (∀ l, IsWalk G start endv l → cost ≤ (walkCost (stepW G) l : ℕ∞)) ∧
      (Reachable G start endv → ∃ l, path = some l ∧ IsWalk G start endv l ∧
        (walkCost (stepW G) l : ℕ∞) = cost) ∧
      (¬Reachable G start endv → path = none ∧ cost = ⊤) := by
  obtain ⟨⟨path, cost⟩, hres, h1, h2, h3⟩ := dijkstra_spec hclosed hnodup hstart
  simp only at h1 h2 h3
  refine ⟨path, cost, hres, h1, ?_, ?_, ?_⟩
  · intro l hl
    rw [h1]
    exact deltaGen_le hl
  · intro hreach
    have hne : delta G start endv ≠ ⊤ := fun h => (delta_eq_top.mp h) hreach
    rcases hp : path with - | l
    · exact absurd (h2.mp hp) hne
    · obtain ⟨hw, hc⟩ := h3 l hp
      exact ⟨l, rfl, hw, by rw [hc, h1]⟩
  · intro hreach
    have htop : delta G start endv = ⊤ := delta_eq_top.mpr hreach
    exact ⟨h2.mpr htop, by rw [h1, htop]⟩

/-- Witness for C1 on the weighted triangle. -/
theorem C1_dijkstra_correct_witness :
    exG1.Closed ∧ exG1.AdjNodup ∧
    (∃ path cost, dijkstra_shortest_path exG1 1 2 = .ok (path, cost) ∧
      cost = delta exG1 1 2 ∧
      (∀ l, IsWalk exG1 1 2 l → cost ≤ (walkCost (stepW exG1) l : ℕ∞)) ∧
      (Reachable exG1 1 2 → ∃ l, path = some l ∧ IsWalk exG1 1 2 l ∧
        (walkCost (stepW exG1) l : ℕ∞) = cost) ∧
      (¬Reachable exG1 1 2 → path = none ∧ cost = ⊤)) :=
  ⟨by decide, by decide,
    C1_dijkstra_correct exG1 1 2 (by decide) (by decide) (by decide) (by decide)⟩

end ClaimC1

section ClaimC9

variable {V : Type} [LinearOrder V]

open PyGraph

/-- C9: On a graph none of whose edges carries a `weight` attribute,
every edge is treated as weight 1 during relaxation, so the cost
returned by `dijkstra_shortest_path` equals the minimum possible number
of edges, and equals the number of edges of the returned path. -/
theorem C9_default_weight_one (G : PyGraph V) (start endv : V)
    (hclosed : G.Closed) (hnodup : G.AdjNodup)
    (hunw : ∀ u ∈ G.nodes, ∀ p ∈ G.adj u, p.2 = none)
    (hstart : start ∈ G.nodes) (hendv : endv ∈ G.nodes) :
    ∃ path cost, dijkstra_shortest_path G start endv = .ok (path, cost) ∧
      cost = edelta G start endv ∧
      ∀ l, path = some l → cost = ((l.length - 1 : ℕ) : ℕ∞) := by
  obtain ⟨⟨path, cost⟩, hres, h1, h2, h3⟩ := dijkstra_spec hclosed hnodup hstart
  simp only at h1 h2 h3
  refine ⟨path, cost, hres, ?_, ?_⟩
  · rw [h1, delta_eq_edelta hclosed hstart hunw]
  · intro l hl
    obtain ⟨hw, hc⟩ := h3 l hl
    rw [h1, ← hc, walk_unweighted_cost hclosed hstart hunw hw]

/-- Witness for C9 on the unweighted path graph. -/
theorem C9_default_weight_one_witness :
    exG2.Closed ∧ exG2.AdjNodup ∧
      (∀ u ∈ exG2.nodes, ∀ p ∈ exG2.adj u, p.2 = none) ∧
    (∃ path cost, dijkstra_shortest_path exG2 1 3 = .ok (path, cost) ∧
      cost = edelta exG2 1 3 ∧
      ∀ l, path = some l → cost = ((l.length - 1 : ℕ) : ℕ∞)) :=
  ⟨by decide, by decide, by decide,
    C9_default_weight_one exG2 1 3 (by decide) (by decide) (by decide)
      (by decide) (by decide)⟩

end ClaimC9

section ClaimC2

variable {V : Type} [LinearOrder V]

open PyGraph

theorem alookup_map_none_notmem {l : List V} {k : V} (hk : k ∉ l) :
    alookup k (l.map fun v => (v, (none : Option V))) = none := by
  induction l with
  | nil => rfl
  | cons a l ih =>
    have hak : a ≠ k := fun h => hk (h ▸ List.mem_cons_self a l)
    simp only [List.map_cons, alookup, if_neg hak]
    exact ih (fun h => hk (List.mem_cons_of_mem _ h))

/-- C2 counterexample: the claim that no exception escapes the search
functions for an absent endpoint is false for Dijkstra — an absent
start node makes `dijkstra_shortest_path` raise `KeyError` (reading
`G[current_node]` for a node that is not in the graph). -/
theorem C2_counterexample :
    dijkstra_shortest_path exG2 5 1 = .error .keyError := by
  unfold dijkstra_shortest_path
  apply dijkstraLoop_eq_error
  rfl

/-- C2 (amended): a start or end identifier absent from the graph is a
reported no-path outcome for DFS and BFS (`None`, no exception), and an
absent end gives Dijkstra the no-path result `(None, inf)`; but an
absent start makes `dijkstra_shortest_path` raise `KeyError` instead of
returning a no-path result. -/
theorem C2_absent_endpoints (G : PyGraph V) (start endv : V)
    (hclosed : G.Closed) (hnodup : G.AdjNodup) :
    ((start ∉ G.nodes ∨ endv ∉ G.nodes) →
      dfs_path G start endv = .ok none ∧ bfs_path G start endv = .ok none) ∧
    (start ∈ G.nodes → endv ∉ G.nodes →
      dijkstra_shortest_path G start endv = .ok (none, ⊤)) ∧
    (start ∉ G.nodes → dijkstra_shortest_path G start endv = .error .keyError) := by
  refine ⟨?_, ?_, ?_⟩
  · intro h
    constructor
    · unfold dfs_path
      rw [if_pos h]
    · unfold bfs_path
      rw [if_pos h]
  · intro hstart hendv
    obtain ⟨⟨path, cost⟩, hres, h1, h2, h3⟩ := dijkstra_spec hclosed hnodup hstart
    simp only at h1 h2 h3
    have htop : delta G start endv = ⊤ :=
      delta_eq_top.mpr (not_reachable_of_not_node hclosed hstart hendv)
    rw [hres, h2.mpr htop, h1, htop]
  · intro hstart
    have hkeys : dijkstraDistKeys G start = G.nodes ++ [start] := by
      unfold dijkstraDistKeys
      rw [if_neg hstart]
    unfold dijkstra_shortest_path
    rw [hkeys]
    apply dijkstraLoop_eq_error
    have hrec : reconstructPath (G.nodes.map fun v => (v, (none : Option V)))
        ((G.nodes.map fun v => (v, (none : Option V))).length + 1) start []
        = .error .keyError := by
      simp only [reconstructPath]
      rw [alookup_map_none_notmem hstart]
    have hadj : G.getAdj start = none := by
      unfold PyGraph.getAdj
      rw [if_neg hstart]
    by_cases hse : start = endv
    · subst hse
      simp only [dijkstraStep, if_pos rfl, hrec]
      simp
    · simp only [dijkstraStep, if_neg hse, hadj]

/-- Witness for the amended C2 on the path graph with the absent node
`5`. -/
theorem C2_absent_endpoints_witness :
    exG2.Closed ∧ exG2.AdjNodup ∧
    (((5 : ℕ) ∉ exG2.nodes ∨ (1 : ℕ) ∉ exG2.nodes) →
      dfs_path exG2 5 1 = .ok none ∧ bfs_path exG2 5 1 = .ok none) ∧
    ((5 : ℕ) ∈ exG2.nodes → (1 : ℕ) ∉ exG2.nodes →
      dijkstra_shortest_path exG2 5 1 = .ok (none, ⊤)) ∧
    ((5 : ℕ) ∉ exG2.nodes → dijkstra_shortest_path exG2 5 1 = .error .keyError) := by
  refine ⟨by decide, by decide, ?_⟩
  exact C2_absent_endpoints exG2 5 1 (by decide) (by decide)

end ClaimC2

section ClaimC4

variable {V : Type} [LinearOrder V]

open PyGraph

/-- A single edge `1—2` of weight 1. -/
def exG3 : PyGraph ℕ where
  nodes := [1, 2]
  adj := fun u =>
    if u = 1 then [(2, some 1)]
    else if u = 2 then [(1, some 1)]
    else []

/-- A state whose queue head `(5, 1)` is stale (`dist 1 = 0 < 5`) and
whose neighbor `2` is still unrelaxed. -/
def exDist4 : ℕ → ℕ∞ := fun v => if v = 1 then 0 else ⊤

def exPred4 : List (ℕ × Option ℕ) := [(1, none), (2, none)]

/-- C4 counterexample: the code has no staleness check, so popping a
stale entry is not a skip — here the stale pop `(5, 1)` (recorded
distance `0 < 5`) relaxes the neighbor `2` from the stale value and
changes the state, where a lazy-deletion skip would leave distances,
predecessors and the rest of the queue untouched. -/
theorem C4_counterexample :
    exDist4 1 < ((5 : ℕ) : ℕ∞) ∧ (1 : ℕ) ≠ 99 ∧
    dijkstraStep exG3 99 [1, 2] ⟨exDist4, exPred4, [(5, 1)]⟩
      ≠ .ok (.inl ⟨exDist4, exPred4, []⟩) := by
  refine ⟨by decide, by decide, ?_⟩
  intro h
  have h2 := congrArg
    (fun r => match r with
      | Except.ok (Sum.inl st) => st.dist 2
      | _ => (0 : ℕ∞)) h
  simp only at h2
  exact absurd h2 (by decide)

theorem relaxNbrs_nofire {keys : List V} {d : ℕ} {u : V} {dist : V → ℕ∞} :
    ∀ {items : List (V × Option ℕ)} {pred : List (V × Option V)}
      {queue : List (ℕ × V)},
    (∀ p ∈ items, p.1 ∈ keys) →
    (∀ p ∈ items, dist p.1 ≤ ((d + pyWeight p.2 : ℕ) : ℕ∞)) →
    relaxNbrs keys d u items dist pred queue = .ok (dist, pred, queue) := by
  intro items
  induction items with
  | nil => intro pred queue _ _; rfl
  | cons p items ih =>
    intro pred queue hkeys hcov
    obtain ⟨w, attr⟩ := p
    have hw : w ∈ keys := hkeys (w, attr) (by simp)
    have hle : dist w ≤ ((d + pyWeight attr : ℕ) : ℕ∞) := hcov (w, attr) (by simp)
    simp only [relaxNbrs, if_pos hw, if_neg (not_lt.mpr hle)]
    exact ih (fun q hq => hkeys q (List.mem_cons_of_mem _ hq))
      (fun q hq => hcov q (List.mem_cons_of_mem _ hq))

/-- C4 (amended): the implementation reprocesses a popped stale entry —
it re-scans the neighbors of the node — but in any state where the
node's recorded distance already satisfies the relaxation inequalities
of its neighbors (as it does whenever the entry is stale in an actual
run), none of the relaxations from the stale entry fires, so distances,
predecessors and the remaining queue are exactly as if the entry had
been skipped. -/
theorem C4_stale_pop_no_change (G : PyGraph V) (endv : V) (keys : List V)
    (dist : V → ℕ∞) (pred : List (V × Option V)) (d : ℕ) (u : V)
    (rest : List (ℕ × V))
    (hne : u ≠ endv) (hu : u ∈ G.nodes)
    (hstale : dist u < (d : ℕ∞))
    (hkeys : ∀ p ∈ G.adj u, p.1 ∈ keys)
    (hcov : ∀ p ∈ G.adj u, dist p.1 ≤ dist u + (pyWeight p.2 : ℕ∞)) :
    dijkstraStep G endv keys ⟨dist, pred, (d, u) :: rest⟩
      = .ok (.inl ⟨dist, pred, rest⟩) := by
  have hcov2 : ∀ p ∈ G.adj u, dist p.1 ≤ ((d + pyWeight p.2 : ℕ) : ℕ∞) := by
    intro p hp
    refine le_trans (hcov p hp) ?_
    push_cast
    exact add_le_add_right (le_of_lt hstale) _
  simp only [dijkstraStep, if_neg hne, getAdj_eq_some.mpr ⟨hu, rfl⟩,
    relaxNbrs_nofire hkeys hcov2]

/-- Witness for the amended C4: a stale pop `(5, 1)` over already
settled distances changes nothing but the queue. -/
theorem C4_stale_pop_no_change_witness :
    dijkstraStep exG3 99 [1, 2]
      ⟨fun v => if v = 1 then 1 else if v = 2 then 2 else ⊤, exPred4, [(5, 1)]⟩
      = .ok (.inl ⟨fun v => if v = 1 then 1 else if v = 2 then 2 else ⊤,
          exPred4, []⟩) :=
  C4_stale_pop_no_change exG3 99 [1, 2] _ exPred4 5 1 []
    (by decide) (by decide) (by decide) (by decide) (by decide)

end ClaimC4

section AllPairs

variable {V : Type} [LinearOrder V]

open PyGraph

/-- In an undirected (symmetric) graph, walks reverse. -/
theorem walk_reverse {G : PyGraph V} (hc : G.Closed) (hs : G.Symm) :
    ∀ {r : List V} {s t : V}, s ∈ G.nodes → IsWalk G s t (s :: r) →
      IsWalk G t s (s :: r).reverse := by
  intro r
  induction r with
  | nil =>
    intro s t hsn hw
    obtain ⟨-, -, hlast⟩ := hw
    simp only [lastD] at hlast
    subst hlast
    exact isWalk_singleton G s
  | cons b r ih =>
    intro s t hsn hw
    obtain ⟨-, hsteps, hlast⟩ := hw
    obtain ⟨hedge, hsteps'⟩ := hsteps
    have hb : b ∈ G.nodes := by
      rw [Option.isSome_iff_exists] at hedge
      obtain ⟨attr, hattr⟩ := hedge
      exact hc s hsn _ (alookup_mem hattr)
    have hw' : IsWalk G b t (b :: r) :=
      ⟨rfl, hsteps', by simpa [lastD] using hlast⟩
    have ihw := ih hb hw'
    have hedge' : (G.edgeAttr b s).isSome := by
      rw [← hs s hsn b hb]
      exact hedge
    have hext := isWalk_extend ihw hedge'
    simpa [List.reverse_cons] using hext

/-- Reachability is symmetric on an undirected graph. -/
theorem reachable_symm {G : PyGraph V} (hc : G.Closed) (hs : G.Symm)
    {s t : V} (hsn : s ∈ G.nodes) (h : Reachable G s t) : Reachable G t s := by
  obtain ⟨l, hl⟩ := h
  obtain ⟨r, rfl⟩ := hl.head
  exact ⟨_, walk_reverse hc hs hsn hl⟩

theorem ordPairs_mem : ∀ {l : List V} {s t : V},
    (s, t) ∈ ordPairs l → s ∈ l ∧ t ∈ l := by
  intro l
  induction l with
  | nil => intro s t h; cases h
  | cons x xs ih =>
    intro s t h
    simp only [ordPairs, List.mem_append, List.mem_map] at h
    rcases h with ⟨y, hy, heq⟩ | h
    · injection heq with h1 h2
      subst h1; subst h2
      exact ⟨List.mem_cons_self x xs, List.mem_cons_of_mem _ hy⟩
    · obtain ⟨h1, h2⟩ := ih h
      exact ⟨List.mem_cons_of_mem _ h1, List.mem_cons_of_mem _ h2⟩

theorem ordPairs_ne : ∀ {l : List V}, l.Nodup → ∀ {s t : V},
    (s, t) ∈ ordPairs l → s ≠ t := by
  intro l
  induction l with
  | nil => intro _ s t h; cases h
  | cons x xs ih =>
    intro hnd s t h
    obtain ⟨hx, hxs⟩ := List.nodup_cons.mp hnd
    simp only [ordPairs, List.mem_append, List.mem_map] at h
    rcases h with ⟨y, hy, heq⟩ | h
    · injection heq with h1 h2
      subst h1; subst h2
      intro he
      subst he
      exact hx hy
    · exact ih hxs h

theorem ordPairs_total : ∀ {l : List V} {s t : V}, s ∈ l → t ∈ l → s ≠ t →
    (s, t) ∈ ordPairs l ∨ (t, s) ∈ ordPairs l := by
  intro l
  induction l with
  | nil => intro s t hs _ _; cases hs
  | cons x xs ih =>
    intro s t hs ht hne
    rcases List.mem_cons.mp hs with rfl | hs'
    · have ht' : t ∈ xs := by
        rcases List.mem_cons.mp ht with h | h
        · exact absurd h.symm hne
        · exact h
      left
      simp only [ordPairs, List.mem_append, List.mem_map]
      exact Or.inl ⟨t, ht', rfl⟩
    · rcases List.mem_cons.mp ht with rfl | ht'
      · right
        simp only [ordPairs, List.mem_append, List.mem_map]
        exact Or.inl ⟨s, hs', rfl⟩
      · rcases ih hs' ht' hne with h | h
        · left
          simp only [ordPairs, List.mem_append]
          exact Or.inr h
        · right
          simp only [ordPairs, List.mem_append]
          exact Or.inr h

theorem ordPairs_antisymm : ∀ {l : List V}, l.Nodup → ∀ {s t : V},
    (s, t) ∈ ordPairs l → (t, s) ∉ ordPairs l := by
  intro l
  induction l with
  | nil => intro _ s t h; cases h
  | cons x xs ih =>
    intro hnd s t h h'
    obtain ⟨hx, hxs⟩ := List.nodup_cons.mp hnd
    simp only [ordPairs, List.mem_append, List.mem_map] at h h'
    rcases h with ⟨y, hy, heq⟩ | h
    · injection heq with h1 h2
      subst h1; subst h2
      rcases h' with ⟨z, hz, heq'⟩ | h'
      · injection heq' with h3 h4
        subst h3
        exact hx hy
      · exact hx (ordPairs_mem h').2
    · rcases h' with ⟨z, hz, heq'⟩ | h'
      · injection heq' with h3 h4
        subst h3
        exact hx (ordPairs_mem h).2
      · exact ih hxs h h'

theorem ordPairs_nodup : ∀ {l : List V}, l.Nodup → (ordPairs l).Nodup := by
  intro l
  induction l with
  | nil => intro _; exact List.nodup_nil
  | cons x xs ih =>
    intro hnd
    obtain ⟨hx, hxs⟩ := List.nodup_cons.mp hnd
    refine List.Nodup.append ?_ (ih hxs) ?_
    · exact List.Nodup.map (fun a b hab => congrArg Prod.snd hab) hxs
    · intro p hp hp'
      simp only [List.mem_map] at hp
      obtain ⟨y, hy, rfl⟩ := hp
      exact hx (ordPairs_mem hp').1

/-- Behaviour of the all-pairs accumulation on any pair list whose
first components are nodes: no exception, kept keys form a sublist of
the pair list, every kept entry is a reachable pair holding the
individual Dijkstra result, and every reachable pair of the list is
kept. -/
theorem allPairsGo_spec {G : PyGraph V} (hclosed : G.Closed)
    (hnodup : G.AdjNodup) :
    ∀ ps : List (V × V), (∀ p ∈ ps, p.1 ∈ G.nodes) →
    ∃ m, allPairsGo G ps = .ok m ∧
      List.Sublist (m.map Prod.fst) ps ∧
      (∀ e ∈ m, Reachable G e.1.1 e.1.2 ∧
        dijkstra_shortest_path G e.1.1 e.1.2 = .ok (some e.2.1, e.2.2)) ∧
      (∀ p ∈ ps, Reachable G p.1 p.2 → p ∈ m.map Prod.fst) := by
  intro ps
  induction ps with
  | nil => intro _; exact ⟨[], rfl, List.Sublist.refl _, by simp, by simp⟩
  | cons p ps ih =>
    intro hmem
    obtain ⟨s, t⟩ := p
    have hs : s ∈ G.nodes := hmem (s, t) (by simp)
    obtain ⟨⟨pathOpt, dval⟩, hres, h1, h2, h3⟩ :=
      @dijkstra_spec _ _ _ s t hclosed hnodup hs
    simp only at h1 h2 h3
    obtain ⟨m, hm, hsub, hent, hcov⟩ :=
      ih (fun q hq => hmem q (List.mem_cons_of_mem _ hq))
    by_cases hreach : Reachable G s t
    · have hne : delta G s t ≠ ⊤ := fun h => (delta_eq_top.mp h) hreach
      rcases hp : pathOpt with - | l
      · exact absurd (h2.mp hp) hne
      · obtain ⟨hw, hc⟩ := h3 l hp
        obtain ⟨r, rfl⟩ := hw.head
        refine ⟨((s, t), (s :: r, dval)) :: m, ?_, ?_, ?_, ?_⟩
        · simp only [allPairsGo, hres, hp, hm]
          rw [if_neg (List.cons_ne_nil s r)]
        · simp only [List.map_cons]
          exact hsub.cons₂ _
        · intro e he
          rcases List.mem_cons.mp he with rfl | he'
          · refine ⟨hreach, ?_⟩
            rw [← hp]
            exact hres
          · exact hent e he'
        · intro q hq hr
          rcases List.mem_cons.mp hq with rfl | hq'
          · simp
          · simp only [List.map_cons]
            exact List.mem_cons_of_mem _ (hcov q hq' hr)
    · have htop : delta G s t = ⊤ := delta_eq_top.mpr hreach
      have hp : pathOpt = none := h2.mpr htop
      refine ⟨m, ?_, hsub.cons _, hent, ?_⟩
      · simp only [allPairsGo, hres, hp, hm]
      · intro q hq hr
        rcases List.mem_cons.mp hq with rfl | hq'
        · exact absurd hr hreach
        · exact hcov q hq' hr

end AllPairs

section ClaimC6

variable {V : Type} [LinearOrder V]

open PyGraph

/-- C6: on a well-formed undirected graph, `all_pairs_shortest_paths`
returns a mapping with exactly one entry per unordered pair of
distinct, mutually reachable nodes — its keys are pairwise distinct, no
key appears together with its reverse, every entry's pair is distinct
and reachable, every reachable unordered pair of distinct nodes is
represented in exactly one orientation — and each entry's `(path, cost)`
is precisely the value `dijkstra_shortest_path` returns on that pair. -/
theorem C6_all_pairs_complete (G : PyGraph V)
    (hclosed : G.Closed) (hadj : G.AdjNodup) (hnodes : G.NodesNodup)
    (hsym : G.Symm) :
    ∃ m, all_pairs_shortest_paths G = .ok m ∧
      (m.map Prod.fst).Nodup ∧
      (∀ e ∈ m, e.1.1 ≠ e.1.2 ∧ Reachable G e.1.1 e.1.2 ∧
        dijkstra_shortest_path G e.1.1 e.1.2 = .ok (some e.2.1, e.2.2)) ∧
      (∀ e ∈ m, (e.1.2, e.1.1) ∉ m.map Prod.fst) ∧
      (∀ s ∈ G.nodes, ∀ t ∈ G.nodes, s ≠ t → Reachable G s t →
        ∃ e ∈ m, e.1 = (s, t) ∨ e.1 = (t, s)) := by
  obtain ⟨m, hm, hsub, hent, hcov⟩ := allPairsGo_spec hclosed hadj
    (ordPairs G.nodes) (fun p hp => (ordPairs_mem hp).1)
  refine ⟨m, hm, ?_, ?_, ?_, ?_⟩
  · exact List.Nodup.sublist hsub (ordPairs_nodup hnodes)
  · intro e he
    have hkey : e.1 ∈ ordPairs G.nodes :=
      hsub.subset (List.mem_map_of_mem Prod.fst he)
    obtain ⟨hr, hd⟩ := hent e he
    exact ⟨ordPairs_ne hnodes hkey, hr, hd⟩
  · intro e he hmem
    have hkey : e.1 ∈ ordPairs G.nodes :=
      hsub.subset (List.mem_map_of_mem Prod.fst he)
    exact ordPairs_antisymm hnodes hkey (hsub.subset hmem)
  · intro s hs t ht hne hr
    rcases ordPairs_total hs ht hne with h | h
    · have hkm := hcov (s, t) h hr
      simp only [List.mem_map] at hkm
      obtain ⟨e, he, heq⟩ := hkm
      exact ⟨e, he, Or.inl heq⟩
    · have hr' : Reachable G t s := reachable_symm hclosed hsym hs hr
      have hkm := hcov (t, s) h hr'
      simp only [List.mem_map] at hkm
      obtain ⟨e, he, heq⟩ := hkm
      exact ⟨e, he, Or.inr heq⟩

/-- Witness for C6 on the unweighted path graph with an isolated node. -/
theorem C6_all_pairs_complete_witness :
    exG2.Closed ∧ exG2.AdjNodup ∧ exG2.NodesNodup ∧ exG2.Symm ∧
    (∃ m, all_pairs_shortest_paths exG2 = .ok m ∧
      (m.map Prod.fst).Nodup ∧
      (∀ e ∈ m, e.1.1 ≠ e.1.2 ∧ Reachable exG2 e.1.1 e.1.2 ∧
        dijkstra_shortest_path exG2 e.1.1 e.1.2 = .ok (some e.2.1, e.2.2)) ∧
      (∀ e ∈ m, (e.1.2, e.1.1) ∉ m.map Prod.fst) ∧
      (∀ s ∈ exG2.nodes, ∀ t ∈ exG2.nodes, s ≠ t → Reachable exG2 s t →
        ∃ e ∈ m, e.1 = (s, t) ∨ e.1 = (t, s))) :=
  ⟨by decide, by decide, by decide, by decide,
    C6_all_pairs_complete exG2 (by decide) (by decide) (by decide) (by decide)⟩

end ClaimC6

section BfsCorrect

variable {V : Type} [LinearOrder V]

open PyGraph

/-- Invariant of the `while queue` loop of `bfs_path`: every visited
vertex carries a parent chain that is a shortest (fewest-edge) walk
from `start`, fully processed vertices have all neighbors visited, and
the queue is level-sorted with spread at most one. -/
structure BInv (G : PyGraph V) (start endv : V) (visited : List V)
    (parent : List (V × Option V)) (queue : List V) : Prop where
  vis_nodes : ∀ v ∈ visited, v ∈ G.nodes
  start_vis : start ∈ visited
  q_vis : ∀ v ∈ queue, v ∈ visited
  q_nodup : queue.Nodup
  chains : ∀ v ∈ visited, ∃ l,
    PredChain G (fun _ => (⊤ : ℕ∞)) parent start l v ∧
    ((l.length - 1 : ℕ) : ℕ∞) = edelta G start v ∧ ∀ x ∈ l, x ∈ visited
  proc : ∀ v ∈ visited, v ∉ queue → ∀ p ∈ G.adj v, p.1 ∈ visited
  q_sorted : queue.Pairwise (fun a b => edelta G start a ≤ edelta G start b)
  q_spread : ∀ a ∈ queue, ∀ b ∈ queue,
    edelta G start a ≤ edelta G start b + 1
  end_q : endv ∉ visited ∨ endv ∈ queue

/-- Intermediate invariant while the neighbors of the popped vertex `u`
(of level `k`) are being processed. -/
structure BPost (G : PyGraph V) (start endv u : V) (k : ℕ)
    (visited : List V) (parent : List (V × Option V)) (queue : List V) :
    Prop where
  vis_nodes : ∀ v ∈ visited, v ∈ G.nodes
  start_vis : start ∈ visited
  u_vis : u ∈ visited
  q_vis : ∀ v ∈ queue, v ∈ visited
  q_nodup : queue.Nodup
  u_notq : u ∉ queue
  chains : ∀ v ∈ visited, ∃ l,
    PredChain G (fun _ => (⊤ : ℕ∞)) parent start l v ∧
    ((l.length - 1 : ℕ) : ℕ∞) = edelta G start v ∧ ∀ x ∈ l, x ∈ visited
  proc : ∀ v ∈ visited, v ∉ queue → v ≠ u → ∀ p ∈ G.adj v, p.1 ∈ visited
  q_sorted : queue.Pairwise (fun a b => edelta G start a ≤ edelta G start b)
  q_lb : ∀ a ∈ queue, (k : ℕ∞) ≤ edelta G start a
  q_ub : ∀ a ∈ queue, edelta G start a ≤ (k : ℕ∞) + 1
  min_fresh : ∀ y, y ∉ visited → (k : ℕ∞) + 1 ≤ edelta G start y
  end_q : endv ∉ visited ∨ endv ∈ queue

/-- When every visited vertex is fully processed, no walk escapes the
visited set. -/
theorem bfs_exhausted {G : PyGraph V} {start : V} {visited : List V}
    (hstart_vis : start ∈ visited)
    (hproc : ∀ v ∈ visited, ∀ p ∈ G.adj v, p.1 ∈ visited)
    {y : V} (hy : y ∉ visited) : ¬Reachable G start y := by
  rintro ⟨l, hw⟩
  obtain ⟨r, rfl⟩ := hw.head
  obtain ⟨-, hsteps, hlast⟩ := hw
  obtain ⟨r₁, b, r₂, hr, ha, hb, hedge⟩ :=
    steps_cross (S := fun x => x ∈ visited) hsteps hstart_vis
      (by rw [hlast]; exact hy)
  rw [Option.isSome_iff_exists] at hedge
  obtain ⟨attr, hattr⟩ := hedge
  exact hb (hproc _ ha _ (alookup_mem hattr))

/-- Vertices not yet visited lie strictly beyond the level of the queue
head: the heart of BFS minimality. -/
theorem bfs_fresh_min {G : PyGraph V} {start u : V} {visited rest : List V}
    (hstart_vis : start ∈ visited)
    (hproc : ∀ v ∈ visited, v ∉ u :: rest → ∀ p ∈ G.adj v, p.1 ∈ visited)
    (hq_sorted : (u :: rest).Pairwise
      (fun a b => edelta G start a ≤ edelta G start b))
    {y : V} (hy : y ∉ visited) :
    edelta G start u + 1 ≤ edelta G start y := by
  by_cases hreach : Reachable G start y
  · obtain ⟨l, hw, hc⟩ := deltaGen_attained (f := fun _ _ => 1) hreach
    have hc' : ((walkCost (fun _ _ => 1) l : ℕ) : ℕ∞) = edelta G start y := hc
    obtain ⟨r, rfl⟩ := hw.head
    obtain ⟨-, hsteps, hlast⟩ := hw
    obtain ⟨r₁, b, r₂, hr, ha, hb, hedge⟩ :=
      steps_cross (S := fun x => x ∈ visited) hsteps hstart_vis
        (by rw [hlast]; exact hy)
    have haq : lastD start r₁ ∈ u :: rest := by
      by_contra haq
      rw [Option.isSome_iff_exists] at hedge
      obtain ⟨attr, hattr⟩ := hedge
      exact hb (hproc _ ha haq _ (alookup_mem hattr))
    have hua : edelta G start u ≤ edelta G start (lastD start r₁) := by
      rcases List.mem_cons.mp haq with heq | hmem
      · rw [heq]
      · exact (List.pairwise_cons.mp hq_sorted).1 _ hmem
    have hpre : IsWalk G start (lastD start r₁) (start :: r₁) := by
      rw [hr, steps_append] at hsteps
      exact isWalk_cons.mpr ⟨hsteps.1, rfl⟩
    have hale : edelta G start (lastD start r₁) ≤ (r₁.length : ℕ∞) := by
      have h1 := deltaGen_le (f := fun _ _ => 1) hpre
      rwa [show walkCost (fun _ _ => (1:ℕ)) (start :: r₁) = r₁.length from by
        simp [walkCost, costFrom_one]] at h1
    have hylen : edelta G start y = (r.length : ℕ∞) := by
      rw [← hc']
      congr 1
      simp [walkCost, costFrom_one]
    have hrlen : r₁.length + 1 ≤ r.length := by
      rw [hr]
      simp only [List.length_append, List.length_cons]
      omega
    calc edelta G start u + 1 ≤ (r₁.length : ℕ∞) + 1 :=
          add_le_add_right (le_trans hua hale) 1
      _ = ((r₁.length + 1 : ℕ) : ℕ∞) := by push_cast; ring
      _ ≤ (r.length : ℕ∞) := by exact_mod_cast hrlen
      _ = edelta G start y := hylen.symm
  · have htop : edelta G start y = ⊤ := deltaGen_eq_top.mpr hreach
    rw [htop]
    exact le_top

/-- A predecessor chain survives the insertion of a pointer for a
vertex outside the chain. -/
theorem predChain_aset {G : PyGraph V} {dist : V → ℕ∞}
    {pred : List (V × Option V)} {start v w : V} {b : Option V}
    {l : List V}
    (h : PredChain G dist pred start l v) (hwl : w ∉ l) :
    PredChain G dist (aset w b pred) start l v := by
  obtain ⟨r, rfl, hlook, hlink, hlast, hnd⟩ := h
  refine ⟨r, rfl, ?_, ?_, hlast, hnd⟩
  · rw [alookup_aset_ne
      (fun hh => hwl (by rw [← hh]; exact List.mem_cons_self _ _))]
    exact hlook
  · refine linked_transfer hlink (fun z hz => ⟨?_, rfl⟩) (le_refl _)
    exact alookup_aset_ne
      (fun hh => hwl (by rw [← hh]; exact List.mem_cons_of_mem _ hz)) _ _

theorem bfsLoop_eq_nil {G : PyGraph V} {endv : V} {visited : List V}
    {parent : List (V × Option V)} :
    bfsLoop G endv visited parent [] = .ok none := by
  unfold bfsLoop
  rfl

theorem bfsLoop_eq_found {G : PyGraph V} {endv : V} {visited : List V}
    {parent : List (V × Option V)} {r path : List V}
    (hrec : reconstructPath parent (parent.length + 1) endv [] = .ok path) :
    bfsLoop G endv visited parent (endv :: r) = .ok (some path) := by
  unfold bfsLoop
  rw [if_pos rfl, hrec]

theorem bfsLoop_eq_step {G : PyGraph V} {endv b : V} {visited v' : List V}
    {parent p' : List (V × Option V)} {r q' : List V}
    {items : List (V × Option ℕ)}
    (hbe : b ≠ endv) (hadj : G.getAdj b = some items)
    (hpn : processNbrs b items visited parent r = (v', p', q')) :
    bfsLoop G endv visited parent (b :: r) = bfsLoop G endv v' p' q' := by
  conv_lhs => unfold bfsLoop
  rw [if_neg hbe]
  split
  next heq => rw [hadj] at heq; cases heq
  next items2 heq =>
    rw [hadj] at heq
    injection heq with heq2
    subst heq2
    split
    next v2 p2 q2 heq2 =>
      rw [hpn] at heq2
      injection heq2 with h1 h2
      injection h2 with h2 h3
      subst h1
      subst h2
      subst h3
      rfl

end BfsCorrect

section BfsCorrect2

variable {V : Type} [LinearOrder V]

open PyGraph

/-- Processing the neighbors of the popped vertex `u` preserves the
intermediate invariant and leaves every processed neighbor visited. -/
theorem processNbrs_inv {G : PyGraph V} (hclosed : G.Closed)
    {start endv u : V} {k : ℕ} (hu_nodes : u ∈ G.nodes)
    (hlev_u : edelta G start u = (k : ℕ∞)) :
    ∀ {items : List (V × Option ℕ)} {visited : List V}
      {parent : List (V × Option V)} {queue : List V}
      {visited' : List V} {parent' : List (V × Option V)} {queue' : List V},
    (∀ p ∈ items, p ∈ G.adj u) →
    BPost G start endv u k visited parent queue →
    processNbrs u items visited parent queue = (visited', parent', queue') →
    BPost G start endv u k visited' parent' queue' ∧
      ∀ p ∈ items, p.1 ∈ visited' := by
  intro items
  induction items with
  | nil =>
    intro visited parent queue v' p' q' _ hinv h
    simp only [processNbrs, Prod.mk.injEq] at h
    obtain ⟨rfl, rfl, rfl⟩ := h
    exact ⟨hinv, by simp⟩
  | cons p items ih =>
    intro visited parent queue v' p' q' hitems hinv h
    obtain ⟨w, attr⟩ := p
    have hw_adj : (w, attr) ∈ G.adj u := hitems _ (by simp)
    have hitems' : ∀ q ∈ items, q ∈ G.adj u :=
      fun q hq => hitems q (List.mem_cons_of_mem _ hq)
    simp only [processNbrs] at h
    by_cases hw : w ∈ visited
    · rw [if_pos hw] at h
      obtain ⟨hpost, hcov⟩ := ih hitems' hinv h
      obtain ⟨added, hv', -, -⟩ := processNbrs_spec h
      refine ⟨hpost, ?_⟩
      intro q hq
      rcases List.mem_cons.mp hq with rfl | hq2
      · rw [hv']
        exact List.mem_append_left _ hw
      · exact hcov q hq2
    · rw [if_neg hw] at h
      have hw_node : w ∈ G.nodes := hclosed u hu_nodes _ hw_adj
      have hedge : (G.edgeAttr u w).isSome := mem_alookup_isSome hw_adj
      have hsw : start ≠ w := fun hh => hw (hh ▸ hinv.start_vis)
      have huw : u ≠ w := fun hh => hw (hh ▸ hinv.u_vis)
      obtain ⟨lu, hpcu, hlenu, hsubu⟩ := hinv.chains u hinv.u_vis
      obtain ⟨ru, hlu, hlooku, hlinku, hlastu, hndu⟩ := hpcu
      have hwalku : IsWalk G start u lu := by
        rw [hlu]
        exact isWalk_cons.mpr ⟨linked_steps hlinku, hlastu⟩
      have hcostu : walkCost (fun _ _ => (1:ℕ)) lu = ru.length := by
        rw [hlu]
        simp [walkCost, costFrom_one]
      have hrulen : ru.length = k := by
        have h0 : ((lu.length - 1 : ℕ) : ℕ∞) = (k : ℕ∞) := by
          rw [hlenu, hlev_u]
        have h1 : lu.length - 1 = k := by exact_mod_cast h0
        rw [hlu] at h1
        simpa using h1
      have hextw : IsWalk G start w (lu ++ [w]) := isWalk_extend hwalku hedge
      have hlevw : edelta G start w = ((k + 1 : ℕ) : ℕ∞) := by
        refine le_antisymm ?_ ?_
        · have h1 := deltaGen_le (f := fun _ _ => (1:ℕ)) hextw
          rw [walkCost_extend _ hwalku w, hcostu, hrulen] at h1
          exact h1
        · calc ((k + 1 : ℕ) : ℕ∞) = (k : ℕ∞) + 1 := by push_cast; ring
            _ ≤ edelta G start w := hinv.min_fresh w hw
      obtain ⟨attr0, hattr0⟩ := Option.isSome_iff_exists.mp hedge
      have hchain_w : PredChain G (fun _ => (⊤ : ℕ∞))
          (aset w (some u) parent) start (lu ++ [w]) w := by
        refine ⟨ru ++ [w], by rw [hlu]; simp, ?_, ?_, ?_, ?_⟩
        · rw [alookup_aset_ne hsw]
          exact hlooku
        · rw [linked_append]
          constructor
          · refine linked_transfer hlinku (fun z hz => ⟨?_, rfl⟩) (le_refl _)
            refine alookup_aset_ne (fun hh => hw ?_) _ _
            refine hsubu w ?_
            rw [hlu, ← hh]
            exact List.mem_cons_of_mem _ hz
          · rw [hlastu]
            refine ⟨⟨attr0, alookup_aset_self _ _ _, hattr0, by simp⟩, trivial⟩
        · rw [lastD_append]
          rfl
        · have heq : start :: (ru ++ [w]) = (start :: ru) ++ [w] := by simp
          rw [heq]
          refine List.Nodup.append hndu (List.nodup_singleton w) ?_
          intro x hx hxw
          rw [List.mem_singleton] at hxw
          subst hxw
          refine hw (hsubu x ?_)
          rw [hlu]
          exact hx
      have hlenw : (((lu ++ [w]).length - 1 : ℕ) : ℕ∞) = edelta G start w := by
        have : (lu ++ [w]).length - 1 = k + 1 := by
          rw [hlu]
          simp [hrulen]
        rw [this, hlevw]
      have hkk1 : ((k + 1 : ℕ) : ℕ∞) = (k : ℕ∞) + 1 := by push_cast; ring
      have hinv' : BPost G start endv u k (visited ++ [w])
          (aset w (some u) parent) (queue ++ [w]) := by
        refine ⟨?_, ?_, ?_, ?_, ?_, ?_, ?_, ?_, ?_, ?_, ?_, ?_, ?_⟩
        · intro v hv
          rcases List.mem_append.mp hv with hv1 | hv1
          · exact hinv.vis_nodes v hv1
          · rw [List.mem_singleton] at hv1
            subst hv1
            exact hw_node
        · exact List.mem_append_left _ hinv.start_vis
        · exact List.mem_append_left _ hinv.u_vis
        · intro v hv
          rcases List.mem_append.mp hv with hv1 | hv1
          · exact List.mem_append_left _ (hinv.q_vis v hv1)
          · exact List.mem_append_right _ hv1
        · refine List.Nodup.append hinv.q_nodup (List.nodup_singleton w) ?_
          intro a ha haw
          rw [List.mem_singleton] at haw
          subst haw
          exact hw (hinv.q_vis _ ha)
        · intro hh
          rcases List.mem_append.mp hh with hh1 | hh1
          · exact hinv.u_notq hh1
          · rw [List.mem_singleton] at hh1
            exact huw hh1
        · intro v hv
          rcases List.mem_append.mp hv with hv1 | hv1
          · obtain ⟨l, hpc, hlen, hsub⟩ := hinv.chains v hv1
            exact ⟨l, predChain_aset hpc (fun hwl => hw (hsub w hwl)), hlen,
              fun x hx => List.mem_append_left _ (hsub x hx)⟩
          · rw [List.mem_singleton] at hv1
            rw [hv1]
            refine ⟨lu ++ [w], hchain_w, hlenw, ?_⟩
            intro x hx
            rcases List.mem_append.mp hx with hx1 | hx1
            · exact List.mem_append_left _ (hsubu x hx1)
            · exact List.mem_append_right _ hx1
        · intro v hv hvq hvu
          rcases List.mem_append.mp hv with hv1 | hv1
          · have hvq' : v ∉ queue := fun hh => hvq (List.mem_append_left _ hh)
            exact fun p hp =>
              List.mem_append_left _ (hinv.proc v hv1 hvq' hvu p hp)
          · exact absurd (List.mem_append_right _ hv1) (fun hh => hvq hh)
        · rw [List.pairwise_append]
          refine ⟨hinv.q_sorted, List.pairwise_singleton _ _, ?_⟩
          intro a ha b hb
          rw [List.mem_singleton] at hb
          subst hb
          rw [hlevw, hkk1]
          exact hinv.q_ub a ha
        · intro a ha
          rcases List.mem_append.mp ha with ha1 | ha1
          · exact hinv.q_lb a ha1
          · rw [List.mem_singleton] at ha1
            subst ha1
            rw [hlevw]
            exact Nat.cast_le.mpr (by omega)
        · intro a ha
          rcases List.mem_append.mp ha with ha1 | ha1
          · exact hinv.q_ub a ha1
          · rw [List.mem_singleton] at ha1
            subst ha1
            rw [hlevw, hkk1]
        · intro y hy
          exact hinv.min_fresh y (fun hh => hy (List.mem_append_left _ hh))
        · rcases hinv.end_q with he | he
          · by_cases hew : endv = w
            · right
              rw [hew]
              exact List.mem_append_right _ (by simp)
            · left
              intro hh
              rcases List.mem_append.mp hh with hh1 | hh1
              · exact he hh1
              · rw [List.mem_singleton] at hh1
                exact hew hh1
          · right
            exact List.mem_append_left _ he
      obtain ⟨hpost, hcov⟩ := ih hitems' hinv' h
      obtain ⟨added, hv', -, -⟩ := processNbrs_spec h
      refine ⟨hpost, ?_⟩
      intro q hq
      rcases List.mem_cons.mp hq with rfl | hq2
      · rw [hv']
        exact List.mem_append_left _ (List.mem_append_right _ (by simp))
      · exact hcov q hq2

end BfsCorrect2

section BfsCorrect3

variable {V : Type} [LinearOrder V]

open PyGraph

/-- The BFS loop, run from any state satisfying the invariant on a
graph where `endv` is reachable, returns a shortest (fewest-edge) walk
from `start` to `endv`. -/
theorem bfsLoop_correct {G : PyGraph V} {start endv : V}
    (hclosed : G.Closed) (hreach : Reachable G start endv) :
    ∀ (visited : List V) (parent : List (V × Option V)) (queue : List V),
    BInv G start endv visited parent queue →
    ∃ l, bfsLoop G endv visited parent queue = .ok (some l) ∧
      IsWalk G start endv l ∧
      ((l.length - 1 : ℕ) : ℕ∞) = edelta G start endv := by
  intro visited parent queue
  induction visited, parent, queue using bfsLoop.induct G endv with
  | case1 visited parent =>
    intro inv
    exfalso
    have hnv : endv ∉ visited := by
      rcases inv.end_q with h | h
      · exact h
      · cases h
    exact bfs_exhausted inv.start_vis
      (fun v hv => inv.proc v hv (List.not_mem_nil v)) hnv hreach
  | case2 visited parent r e hrec =>
    intro inv
    exfalso
    have hev : endv ∈ visited := inv.q_vis endv (List.mem_cons_self _ _)
    obtain ⟨l, hpc, -, -⟩ := inv.chains endv hev
    obtain ⟨r0, hl0, hlook0, hlink0, hlast0, hnd0⟩ := hpc
    have hpc2 : PredChain G (fun _ => (⊤ : ℕ∞)) parent start l endv :=
      ⟨r0, hl0, hlook0, hlink0, hlast0, hnd0⟩
    have hrec2 := chain_reconstruct hpc2 hl0 [] (parent.length + 1)
      (chain_length_le hpc2)
    rw [hrec] at hrec2
    simp at hrec2
  | case3 visited parent r path hrec =>
    intro inv
    have hev : endv ∈ visited := inv.q_vis endv (List.mem_cons_self _ _)
    obtain ⟨l, hpc, hlen, -⟩ := inv.chains endv hev
    obtain ⟨r0, hl0, hlook0, hlink0, hlast0, hnd0⟩ := hpc
    have hpc2 : PredChain G (fun _ => (⊤ : ℕ∞)) parent start l endv :=
      ⟨r0, hl0, hlook0, hlink0, hlast0, hnd0⟩
    have hrec2 := chain_reconstruct hpc2 hl0 [] (parent.length + 1)
      (chain_length_le hpc2)
    rw [hrec] at hrec2
    have hpath : path = l := by
      injection hrec2 with h1
      simpa using h1
    refine ⟨path, bfsLoop_eq_found hrec, ?_, ?_⟩
    · rw [hpath, hl0]
      exact isWalk_cons.mpr ⟨linked_steps hlink0, hlast0⟩
    · rw [hpath]
      exact hlen
  | case4 visited parent b r hbe hadj =>
    intro inv
    exfalso
    have hb : b ∈ G.nodes :=
      inv.vis_nodes b (inv.q_vis b (List.mem_cons_self _ _))
    rw [getAdj_eq_some.mpr ⟨hb, rfl⟩] at hadj
    cases hadj
  | case5 visited parent b r hbe items hadj v' p' q' hpn ih =>
    intro inv
    have hbv : b ∈ visited := inv.q_vis b (List.mem_cons_self _ _)
    have hbn : b ∈ G.nodes := inv.vis_nodes b hbv
    obtain ⟨lb, hpcb, hlenb, hsubb⟩ := inv.chains b hbv
    have hlevb : edelta G start b = ((lb.length - 1 : ℕ) : ℕ∞) := hlenb.symm
    have hitems : ∀ p ∈ items, p ∈ G.adj b := by
      have h2 := (getAdj_eq_some.mp hadj).2
      intro p hp
      rw [← h2]
      exact hp
    have hnodup := List.nodup_cons.mp inv.q_nodup
    have hmin : ∀ y, y ∉ visited →
        ((lb.length - 1 : ℕ) : ℕ∞) + 1 ≤ edelta G start y := by
      intro y hy
      rw [← hlevb]
      exact bfs_fresh_min inv.start_vis inv.proc inv.q_sorted hy
    have hpost0 : BPost G start endv b (lb.length - 1) visited parent r := by
      refine ⟨inv.vis_nodes, inv.start_vis, hbv,
        fun v hv => inv.q_vis v (List.mem_cons_of_mem _ hv),
        hnodup.2, hnodup.1, inv.chains, ?_,
        (List.pairwise_cons.mp inv.q_sorted).2, ?_, ?_, hmin, ?_⟩
      · intro v hv hvr hvb
        refine inv.proc v hv ?_
        intro hh
        rcases List.mem_cons.mp hh with h1 | h1
        · exact hvb h1
        · exact hvr h1
      · intro a ha
        rw [← hlevb]
        exact (List.pairwise_cons.mp inv.q_sorted).1 a ha
      · intro a ha
        rw [← hlevb]
        exact inv.q_spread a (List.mem_cons_of_mem _ ha) b
          (List.mem_cons_self _ _)
      · rcases inv.end_q with h | h
        · exact Or.inl h
        · rcases List.mem_cons.mp h with h1 | h1
          · exact absurd h1.symm hbe
          · exact Or.inr h1
    obtain ⟨hpost, hcov⟩ :=
      processNbrs_inv hclosed hbn hlevb hitems hpost0 hpn
    have hinv' : BInv G start endv v' p' q' := by
      refine ⟨hpost.vis_nodes, hpost.start_vis, hpost.q_vis, hpost.q_nodup,
        hpost.chains, ?_, hpost.q_sorted, ?_, hpost.end_q⟩
      · intro v hv hvq
        by_cases hvb : v = b
        · intro p hp
          refine hcov p ?_
          rw [(getAdj_eq_some.mp hadj).2, ← hvb]
          exact hp
        · exact hpost.proc v hv hvq hvb
      · intro a ha c hc
        calc edelta G start a ≤ ((lb.length - 1 : ℕ) : ℕ∞) + 1 :=
              hpost.q_ub a ha
          _ ≤ edelta G start c + 1 := add_le_add_right (hpost.q_lb c hc) 1
    obtain ⟨l, hloop, hwalk, hlen⟩ := ih hinv'
    exact ⟨l, by rw [bfsLoop_eq_step hbe hadj hpn]; exact hloop, hwalk, hlen⟩

/-- The initial BFS state satisfies the invariant. -/
theorem bfs_init_inv {G : PyGraph V} {start endv : V}
    (hstart : start ∈ G.nodes) :
    BInv G start endv [start] [(start, none)] [start] := by
  have h0 : edelta G start start = 0 := deltaGen_self G _ start
  refine ⟨?_, ?_, ?_, ?_, ?_, ?_, ?_, ?_, ?_⟩
  · intro v hv
    rw [List.mem_singleton] at hv
    rw [hv]
    exact hstart
  · simp
  · intro v hv
    exact hv
  · exact List.nodup_singleton _
  · intro v hv
    rw [List.mem_singleton] at hv
    rw [hv]
    refine ⟨[start], ⟨[], rfl, ?_, trivial, rfl, List.nodup_singleton _⟩,
      ?_, ?_⟩
    · simp [alookup]
    · simp [h0]
    · intro x hx
      exact hx
  · intro v hv hvq
    rw [List.mem_singleton] at hv
    exact absurd (List.mem_singleton.mpr hv) hvq
  · exact List.pairwise_singleton _ _
  · intro a ha c hc
    rw [List.mem_singleton] at ha hc
    rw [ha, hc]
    exact le_self_add
  · by_cases he : endv = start
    · right
      rw [he]
      simp
    · left
      intro hh
      rw [List.mem_singleton] at hh
      exact he hh

end BfsCorrect3

section ClaimC5

variable {V : Type} [LinearOrder V]

open PyGraph

/-- C5: for every graph and every pair of nodes `start`, `endv` with
`endv` reachable from `start`, `bfs_path` returns (without exception) a
walk from `start` to `endv` whose vertex count — hence edge count — is
at most that of any walk between the pair, and the result is uniquely
determined by the inputs, so re-running it on the unchanged graph
returns the identical path. -/
theorem C5_bfs_minimal (G : PyGraph V) (start endv : V)
    (hclosed : G.Closed) (hstart : start ∈ G.nodes) (hendv : endv ∈ G.nodes)
    (hreach : Reachable G start endv) :
    ∃ l, bfs_path G start endv = .ok (some l) ∧
      IsWalk G start endv l ∧
      (∀ l', IsWalk G start endv l' → l.length ≤ l'.length) ∧
      (∀ res, bfs_path G start endv = .ok res → res = some l) := by
  obtain ⟨l, hloop, hwalk, hlen⟩ :=
    bfsLoop_correct hclosed hreach [start] [(start, none)] [start]
      (bfs_init_inv hstart)
  have hpath : bfs_path G start endv = .ok (some l) := by
    unfold bfs_path
    have hcond : ¬(start ∉ G.nodes ∨ endv ∉ G.nodes) := by
      push_neg
      exact ⟨hstart, hendv⟩
    rw [if_neg hcond]
    exact hloop
  refine ⟨l, hpath, hwalk, ?_, ?_⟩
  · intro l' hw'
    have hle : edelta G start endv
        ≤ ((walkCost (fun _ _ => (1:ℕ)) l' : ℕ) : ℕ∞) := deltaGen_le hw'
    obtain ⟨r', rfl⟩ := hw'.head
    rw [← hlen] at hle
    have hle2 : l.length - 1 ≤ walkCost (fun _ _ => (1:ℕ)) (start :: r') := by
      exact_mod_cast hle
    rw [show walkCost (fun _ _ => (1:ℕ)) (start :: r') = r'.length from by
      simp [walkCost, costFrom_one]] at hle2
    obtain ⟨r0, rfl⟩ := hwalk.head
    simp only [List.length_cons]
    simp only [List.length_cons, Nat.add_sub_cancel] at hle2
    omega
  · intro res hres
    rw [hpath] at hres
    injection hres with h1
    exact h1.symm

/-- Witness for C5 on the unweighted path graph. -/
theorem C5_bfs_minimal_witness :
    exG2.Closed ∧ (1 : ℕ) ∈ exG2.nodes ∧ (3 : ℕ) ∈ exG2.nodes ∧
    Reachable exG2 1 3 ∧
    (∃ l, bfs_path exG2 1 3 = .ok (some l) ∧
      IsWalk exG2 1 3 l ∧
      (∀ l', IsWalk exG2 1 3 l' → l.length ≤ l'.length) ∧
      (∀ res, bfs_path exG2 1 3 = .ok res → res = some l)) :=
  ⟨by decide, by decide, by decide, ⟨[1, 2, 3], by decide⟩,
    C5_bfs_minimal exG2 1 3 (by decide) (by decide) (by decide)
      ⟨[1, 2, 3], by decide⟩⟩

end ClaimC5

section BuilderLemmas

/-- Any successfully assembled graph takes its node list from
`build_stop_clusters` and its edge list from `buildAllTrips` started on
an empty edge list. -/
theorem build_hvv_graph_ok {stops stopTimes trips routes : DF}
    {allowed : Option (List ℤ)} {g : HvvGraph}
    (h : build_hvv_graph stops stopTimes trips routes allowed = .ok g) :
    ∃ used groups,
      g.nodes = (build_stop_clusters stops.rows used).1 ∧
      buildAllTrips (build_stop_clusters stops.rows used).2 groups []
        = .ok g.edges := by
  rcases allowed with - | al
  · simp only [build_hvv_graph, bind, Except.bind, pure, Except.pure,
      requireCol] at h
    repeat
      first
      | (split at h)
      | contradiction
    rename_i es heq
    injection h with h2
    subst h2
    exact ⟨_, _, rfl, heq⟩
  · simp only [build_hvv_graph, bind, Except.bind, pure, Except.pure,
      requireCol] at h
    repeat
      first
      | (split at h)
      | contradiction
    rename_i es heq
    injection h with h2
    subst h2
    exact ⟨_, _, rfl, heq⟩

/-- Every node the per-trip collection keeps carries a truthy (nonempty)
id: the `if node:` test skips the empty string and missing mappings. -/
theorem tripNodesTimes_ne {mapping : List (Cell × String)} :
    ∀ {rows : List Row} {nt : List (String × ℤ × ℤ)},
    tripNodesTimes mapping rows = .ok nt → ∀ p ∈ nt, p.1 ≠ "" := by
  intro rows
  induction rows with
  | nil =>
    intro nt h p hp
    simp only [tripNodesTimes] at h
    injection h with h1
    subst h1
    cases hp
  | cons row rest ih =>
    intro nt h p hp
    simp only [tripNodesTimes] at h
    split at h
    · exact ih h p hp
    next n hn =>
      by_cases hne : n = ""
      · rw [if_pos hne] at h
        exact ih h p hp
      · rw [if_neg hne] at h
        split at h
        · contradiction
        next arr harr =>
          split at h
          · contradiction
          next dep hdep =>
            split at h
            · contradiction
            next l hl =>
              injection h with h1
              subst h1
              rcases List.mem_cons.mp hp with rfl | hp2
              · exact hne
              · exact ih hl p hp2

/-- `edgeAdd` introduces no key besides `(u, v)`. -/
theorem edgeAdd_keys {u v : String} {t : ℤ} :
    ∀ {es : List ((String × String) × List ℤ)} {x : String × String},
    x ∈ (edgeAdd u v t es).map Prod.fst → x = (u, v) ∨ x ∈ es.map Prod.fst := by
  intro es
  induction es with
  | nil =>
    intro x hx
    simp only [edgeAdd, List.map_cons, List.map_nil, List.mem_singleton] at hx
    exact Or.inl hx
  | cons p es ih =>
    obtain ⟨k, ts⟩ := p
    intro x hx
    simp only [edgeAdd] at hx
    split at hx
    · simp only [List.map_cons] at hx
      rcases List.mem_cons.mp hx with rfl | hx2
      · right
        simp
      · right
        simp only [List.map_cons]
        exact List.mem_cons_of_mem _ hx2
    · simp only [List.map_cons] at hx
      rcases List.mem_cons.mp hx with rfl | hx2
      · right
        simp
      · rcases ih hx2 with h | h
        · exact Or.inl h
        · right
          simp only [List.map_cons]
          exact List.mem_cons_of_mem _ h

/-- Keys created by the per-trip edge loop: either a key already
present, or an unordered pair of distinct trip-node ids. -/
theorem addTripEdges_keys :
    ∀ {nt : List (String × ℤ × ℤ)} {es : List ((String × String) × List ℤ)}
      {e : (String × String) × List ℤ}, e ∈ addTripEdges nt es →
    e.1 ∈ es.map Prod.fst ∨
      (e.1.1 ∈ nt.map Prod.fst ∧ e.1.2 ∈ nt.map Prod.fst ∧ e.1.1 ≠ e.1.2) := by
  intro nt
  induction nt with
  | nil =>
    intro es e he
    exact Or.inl (List.mem_map_of_mem _ he)
  | cons x rest ih =>
    intro es e he
    obtain ⟨u, pu⟩ := x
    cases rest with
    | nil =>
      simp only [addTripEdges] at he
      exact Or.inl (List.mem_map_of_mem _ he)
    | cons y rest2 =>
      obtain ⟨v, pv⟩ := y
      simp only [addTripEdges] at he
      by_cases huv : u = v
      · rw [if_pos huv] at he
        rcases ih he with h | h
        · exact Or.inl h
        · exact Or.inr ⟨List.mem_cons_of_mem _ h.1,
            List.mem_cons_of_mem _ h.2.1, h.2.2⟩
      · rw [if_neg huv] at he
        rcases ih he with h | h
        · rcases edgeAdd_keys h with h2 | h2
          · right
            have h11 : e.1.1 = u := by rw [h2]
            have h12 : e.1.2 = v := by rw [h2]
            rw [h11, h12]
            exact ⟨by simp, by simp, huv⟩
          · exact Or.inl h2
        · exact Or.inr ⟨List.mem_cons_of_mem _ h.1,
            List.mem_cons_of_mem _ h.2.1, h.2.2⟩

/-- Any edge key produced over all trips is either inherited from the
initial edge list or an unordered pair of distinct, truthy node ids. -/
theorem buildAllTrips_keys {mapping : List (Cell × String)} :
    ∀ {gs : List (List Row)} {es es' : List ((String × String) × List ℤ)},
    buildAllTrips mapping gs es = .ok es' → ∀ e ∈ es',
    e.1 ∈ es.map Prod.fst ∨
      (e.1.1 ≠ "" ∧ e.1.2 ≠ "" ∧ e.1.1 ≠ e.1.2) := by
  intro gs
  induction gs with
  | nil =>
    intro es es' h e he
    simp only [buildAllTrips] at h
    injection h with h1
    subst h1
    exact Or.inl (List.mem_map_of_mem _ he)
  | cons gr gs ih =>
    intro es es' h e he
    simp only [buildAllTrips] at h
    split at h
    · contradiction
    next nt hnt =>
      rcases ih h e he with h2 | h2
      · obtain ⟨e2, he2, heq⟩ := List.mem_map.mp h2
        rcases addTripEdges_keys he2 with h3 | h3
        · rw [← heq]
          exact Or.inl h3
        · right
          rw [← heq]
          obtain ⟨p1, hp1, hq1⟩ := List.mem_map.mp h3.1
          obtain ⟨p2, hp2, hq2⟩ := List.mem_map.mp h3.2.1
          exact ⟨hq1 ▸ tripNodesTimes_ne hnt p1 hp1,
            hq2 ▸ tripNodesTimes_ne hnt p2 hp2, h3.2.2⟩
      · exact Or.inr h2

end BuilderLemmas

section BuilderExamples

/-- A stops table: four stops, one (`s3`) with a whitespace-only name
that strips to the empty string. -/
def exStops : DF where
  cols := ["stop_id", "stop_name", "stop_lat", "stop_lon"]
  rows := [
    [("stop_id", .str "s1"), ("stop_name", .str "X"),
      ("stop_lat", .num 1), ("stop_lon", .num 1)],
    [("stop_id", .str "s2"), ("stop_name", .str "Y "),
      ("stop_lat", .num 2), ("stop_lon", .num 2)],
    [("stop_id", .str "s3"), ("stop_name", .str "  "),
      ("stop_lat", .num 3), ("stop_lon", .num 3)],
    [("stop_id", .str "s4"), ("stop_name", .str "Z"),
      ("stop_lat", .num 4), ("stop_lon", .num 4)]]

/-- One trip visiting `s1 → s2 → s3 → s4` across midnight (GTFS hours
above 23), given out of order to exercise the `stop_sequence` sort. -/
def exStopTimes : DF where
  cols := ["trip_id", "stop_id", "stop_sequence", "arrival_time",
    "departure_time"]
  rows := [
    [("trip_id", .str "t1"), ("stop_id", .str "s2"),
      ("stop_sequence", .num 2), ("arrival_time", .str "24:02:00"),
      ("departure_time", .str "24:03:00")],
    [("trip_id", .str "t1"), ("stop_id", .str "s1"),
      ("stop_sequence", .num 1), ("arrival_time", .str "23:57:00"),
      ("departure_time", .str "23:58:00")],
    [("trip_id", .str "t1"), ("stop_id", .str "s3"),
      ("stop_sequence", .num 3), ("arrival_time", .str "24:05:00"),
      ("departure_time", .str "24:06:00")],
    [("trip_id", .str "t1"), ("stop_id", .str "s4"),
      ("stop_sequence", .num 4), ("arrival_time", .str "24:10:00"),
      ("departure_time", .str "24:11:00")]]

def exTrips : DF where
  cols := ["trip_id", "route_id"]
  rows := [[("trip_id", .str "t1"), ("route_id", .str "r1")]]

def exRoutes : DF where
  cols := ["route_id", "route_type"]
  rows := [[("route_id", .str "r1"), ("route_type", .num 3)]]

/-- `exStopTimes` with the `arrival_time` column removed entirely. -/
def exStopTimesNoArr : DF where
  cols := ["trip_id", "stop_id", "stop_sequence", "departure_time"]
  rows := [
    [("trip_id", .str "t1"), ("stop_id", .str "s2"),
      ("stop_sequence", .num 2), ("departure_time", .str "24:03:00")],
    [("trip_id", .str "t1"), ("stop_id", .str "s1"),
      ("stop_sequence", .num 1), ("departure_time", .str "23:58:00")],
    [("trip_id", .str "t1"), ("stop_id", .str "s3"),
      ("stop_sequence", .num 3), ("departure_time", .str "24:06:00")],
    [("trip_id", .str "t1"), ("stop_id", .str "s4"),
      ("stop_sequence", .num 4), ("departure_time", .str "24:11:00")]]

/-- `exStopTimes` with the `stop_sequence` column removed. -/
def exStopTimesNoSeq : DF where
  cols := ["trip_id", "stop_id", "arrival_time", "departure_time"]
  rows := exStopTimes.rows

/-- Stops where `s1` and `s2` share the cleaned name `A` (they cluster
into one node). -/
def exStops2 : DF where
  cols := ["stop_id", "stop_name", "stop_lat", "stop_lon"]
  rows := [
    [("stop_id", .str "s1"), ("stop_name", .str "A"),
      ("stop_lat", .num 1), ("stop_lon", .num 1)],
    [("stop_id", .str "s2"), ("stop_name", .str "A "),
      ("stop_lat", .num 1), ("stop_lon", .num 1)],
    [("stop_id", .str "s3"), ("stop_name", .str "B"),
      ("stop_lat", .num 2), ("stop_lon", .num 2)]]

/-- One trip visiting two stops of the same cluster consecutively. -/
def exStopTimes2 : DF where
  cols := ["trip_id", "stop_id", "stop_sequence", "arrival_time",
    "departure_time"]
  rows := [
    [("trip_id", .str "t1"), ("stop_id", .str "s1"),
      ("stop_sequence", .num 1), ("arrival_time", .str "10:00:00"),
      ("departure_time", .str "10:01:00")],
    [("trip_id", .str "t1"), ("stop_id", .str "s2"),
      ("stop_sequence", .num 2), ("arrival_time", .str "10:04:00"),
      ("departure_time", .str "10:05:00")],
    [("trip_id", .str "t1"), ("stop_id", .str "s3"),
      ("stop_sequence", .num 3), ("arrival_time", .str "10:10:00"),
      ("departure_time", .str "10:11:00")]]

end BuilderExamples

section ClaimC3

/-- C3 counterexample: the timetable timestamp columns are read through
`row.get("arrival_time", "")` with a silent default, so with the whole
`arrival_time` column missing, `build_hvv_graph` does not abort — it
silently assembles a graph from the partial schema (every arrival
parses as `0`, and the second segment even gets the nonsensical
travel-time sample `-180`). -/
theorem C3_counterexample :
    "arrival_time" ∉ exStopTimesNoArr.cols ∧
    build_hvv_graph exStops exStopTimesNoArr exTrips exRoutes (some [3])
      = .ok ⟨["", "X", "Y", "Z"],
          [(("X", "Y"), [120]), (("Y", "Z"), [-180])]⟩ :=
  ⟨by decide, by rfl⟩

/-- C3 (amended): the columns `build_hvv_graph` accesses structurally —
through `df[...]`, `isin`, `merge`, `sort_values` and `groupby`
(`route_type`, `route_id`, `trip_id`, `stop_id`, the four stops
columns, `stop_sequence`) — are fatal when missing: assembly aborts
with `KeyError` before any graph is produced.  Here: with every other
gated column present, a missing `stop_times.stop_sequence` aborts.  The
timestamp columns `arrival_time`/`departure_time` are exempt: they are
read via `row.get` with a default and their absence builds silently
(the counterexample). -/
theorem C3_missing_column_aborts (stops stopTimes trips routes : DF)
    (allowed : Option (List ℤ))
    (h1 : "route_type" ∈ routes.cols) (h2 : "route_id" ∈ routes.cols)
    (h3 : "route_id" ∈ trips.cols) (h4 : "trip_id" ∈ trips.cols)
    (h5 : "trip_id" ∈ stopTimes.cols) (h6 : "stop_id" ∈ stopTimes.cols)
    (h7 : "stop_id" ∈ stops.cols) (h8 : "stop_name" ∈ stops.cols)
    (h9 : "stop_lat" ∈ stops.cols) (h10 : "stop_lon" ∈ stops.cols)
    (hseq : "stop_sequence" ∉ stopTimes.cols) :
    build_hvv_graph stops stopTimes trips routes allowed
      = .error .keyError := by
  rcases allowed with - | al <;>
    simp only [build_hvv_graph, bind, Except.bind, pure, Except.pure,
      requireCol, if_pos h1, if_pos h2, if_pos h3, if_pos h4, if_pos h5,
      if_pos h6, if_pos h7, if_pos h8, if_pos h9, if_pos h10, if_neg hseq]

/-- Witness for the amended C3: dropping `stop_sequence` aborts. -/
theorem C3_missing_column_aborts_witness :
    "stop_sequence" ∉ exStopTimesNoSeq.cols ∧
    build_hvv_graph exStops exStopTimesNoSeq exTrips exRoutes (some [3])
      = .error .keyError :=
  ⟨by decide,
    C3_missing_column_aborts exStops exStopTimesNoSeq exTrips exRoutes
      (some [3]) (by decide) (by decide) (by decide) (by decide) (by decide)
      (by decide) (by decide) (by decide) (by decide) (by decide) (by decide)⟩

end ClaimC3

section ClaimC7

/-- C7 counterexample: the claim that unparseable timestamps parse to
`0` is false — a three-field timestamp with a non-numeric field makes
`parse_gtfs_time` raise `ValueError` (`map(int, parts)`), it does not
return `0`. -/
theorem C7_counterexample :
    parse_gtfs_time (.str "aa:bb:cc") = .error .valueError := by rfl

/-- C7 (amended): for a consecutive pair of mapped nodes `(u, v)` the
edge loop appends exactly the sample `segTime dep(u) arr(v)`, which is
`arrival(v) − departure(u)` in seconds with `24·3600` added exactly
once when the raw difference is negative; `HH:MM:SS` parsing allows
hours above `23`; absent (`NaN` / empty) timestamps and strings that do
not split into three `:`-fields parse to `0` (but a three-field
non-numeric string raises `ValueError` — the counterexample); departing
`23:58:00` and arriving `24:02:00` or `00:02:00` both give `240`, not a
negative value. -/
theorem C7_travel_time_sample (u v : String) (au du av dv : ℤ)
    (es : List ((String × String) × List ℤ)) (hne : u ≠ v) :
    addTripEdges [(u, au, du), (v, av, dv)] es
      = edgeAdd u v (segTime du av) es ∧
    (0 ≤ av - du → segTime du av = av - du) ∧
    (av - du < 0 → segTime du av = av - du + 24 * 3600) ∧
    parse_gtfs_time (.str "23:58:00") = .ok (23 * 3600 + 58 * 60) ∧
    parse_gtfs_time (.str "24:02:00") = .ok (24 * 3600 + 2 * 60) ∧
    parse_gtfs_time (.str "00:02:00") = .ok (2 * 60) ∧
    parse_gtfs_time .na = .ok 0 ∧
    parse_gtfs_time (.str "") = .ok 0 ∧
    parse_gtfs_time (.str "12:34") = .ok 0 ∧
    segTime (23 * 3600 + 58 * 60) (24 * 3600 + 2 * 60) = 240 ∧
    segTime (23 * 3600 + 58 * 60) (2 * 60) = 240 := by
  refine ⟨?_, ?_, ?_, by rfl, by rfl, by rfl, by rfl, by rfl, by rfl,
    by rfl, by rfl⟩
  · simp only [addTripEdges, if_neg hne]
  · intro h
    simp only [segTime]
    rw [if_neg (not_lt.mpr h)]
  · intro h
    simp only [segTime]
    rw [if_pos h]

/-- Witness for the amended C7 at a concrete segment. -/
theorem C7_travel_time_sample_witness :
    addTripEdges [("A", 0, 86280), ("B", 86520, 86580)] []
      = edgeAdd "A" "B" (segTime 86280 86520) [] ∧
    ((0 : ℤ) ≤ 86520 - 86280 → segTime 86280 86520 = 86520 - 86280) ∧
    (86520 - 86280 < (0 : ℤ) →
      segTime 86280 86520 = 86520 - 86280 + 24 * 3600) ∧
    parse_gtfs_time (.str "23:58:00") = .ok (23 * 3600 + 58 * 60) ∧
    parse_gtfs_time (.str "24:02:00") = .ok (24 * 3600 + 2 * 60) ∧
    parse_gtfs_time (.str "00:02:00") = .ok (2 * 60) ∧
    parse_gtfs_time .na = .ok 0 ∧
    parse_gtfs_time (.str "") = .ok 0 ∧
    parse_gtfs_time (.str "12:34") = .ok 0 ∧
    segTime (23 * 3600 + 58 * 60) (24 * 3600 + 2 * 60) = 240 ∧
    segTime (23 * 3600 + 58 * 60) (2 * 60) = 240 :=
  C7_travel_time_sample "A" "B" 0 86280 86520 86580 [] (by decide)

end ClaimC7

section ClaimC8

/-- C8: an assembled graph never contains a self-loop — the `if u != v`
guard skips consecutive stops that cluster to the same node, and every
created edge key is a pair of distinct node ids. -/
theorem C8_no_self_loops (stops stopTimes trips routes : DF)
    (allowed : Option (List ℤ)) (g : HvvGraph)
    (h : build_hvv_graph stops stopTimes trips routes allowed = .ok g) :
    ∀ e ∈ g.edges, e.1.1 ≠ e.1.2 := by
  obtain ⟨used, groups, -, hbuild⟩ := build_hvv_graph_ok h
  intro e he
  rcases buildAllTrips_keys hbuild e he with h2 | h2
  · simp at h2
  · exact h2.2.2

/-- Witness for C8: two consecutive stops of one trip cluster to the
same node `A`; the assembled graph has no `A`–`A` edge, only `A`–`B`. -/
theorem C8_no_self_loops_witness :
    build_hvv_graph exStops2 exStopTimes2 exTrips exRoutes none
      = .ok ⟨["A", "B"], [(("A", "B"), [300])]⟩ ∧
    ∀ e ∈ (HvvGraph.mk ["A", "B"] [(("A", "B"), [300])]).edges,
      e.1.1 ≠ e.1.2 :=
  ⟨by rfl,
    C8_no_self_loops exStops2 exStopTimes2 exTrips exRoutes none _ (by rfl)⟩

end ClaimC8

section ClaimC10

/-- C10: a cluster whose normalized stop name is the empty string is a
node of the graph but is skipped when each trip's node sequence is
collected (`if node:` is false for `""`), so it never receives an edge
— every edge endpoint is a nonempty id — and the mapped nodes before
and after it in a trip become consecutive and are connected directly.
Concretely: stop `s3` of `exStops` has a whitespace-only name; `""` is
a node of the assembled graph, no edge touches it, and its trip
neighbors `Y` and `Z` share a direct edge. -/
theorem C10_empty_name_isolated :
    (∀ (mapping : List (Cell × String)) (row : Row) (rest : List Row),
      alookup (rowGet row "stop_id") mapping = some "" →
      tripNodesTimes mapping (row :: rest) = tripNodesTimes mapping rest) ∧
    (∀ (stops stopTimes trips routes : DF) (allowed : Option (List ℤ))
      (g : HvvGraph),
      build_hvv_graph stops stopTimes trips routes allowed = .ok g →
      ∀ e ∈ g.edges, e.1.1 ≠ "" ∧ e.1.2 ≠ "") ∧
    build_hvv_graph exStops exStopTimes exTrips exRoutes (some [3])
      = .ok ⟨["", "X", "Y", "Z"],
          [(("X", "Y"), [240]), (("Y", "Z"), [420])]⟩ := by
  refine ⟨?_, ?_, by rfl⟩
  · intro mapping row rest h
    simp [tripNodesTimes, h]
  · intro stops stopTimes trips routes allowed g h e he
    obtain ⟨used, groups, -, hbuild⟩ := build_hvv_graph_ok h
    rcases buildAllTrips_keys hbuild e he with h2 | h2
    · simp at h2
    · exact ⟨h2.1, h2.2.1⟩

end ClaimC10
